import Mathlib

/-!
Verification of the boundary-detection core of `poc/poc_extract.py`
(keyword scoring per page, clustering of hit pages into ranges with a gap
tolerance, range expansion with trailing padding, excerpt assembly and
whitespace normalization, JSON-object extraction from free-form model
output, and the exit-code behaviour of the command entry point).

All definitions are shallow embeddings of the Python source.  Strings are
modelled as Lean `String`/`List Char`; Python `re` operations are modelled
by explicit character scans with the same semantics on the patterns the
source uses.
-/

namespace RateScan

/-! ## Marker lexicon and page scoring (`BOUNDARY_MARKERS`, `MARKER_RE`, `score_pages`) -/

/-- Python `\w` on the ASCII fragment: letters, digits and underscore.
Used to model the `\b` word boundaries of the marker patterns. -/
def isWordChar (c : Char) : Bool := c.isAlphanum || c = '_'

/-- The marker phrases of `BOUNDARY_MARKERS`, each of which appears in the
source as `\b<phrase>\b`, joined by `|` into `MARKER_RE` with
`re.IGNORECASE`. -/
def BOUNDARY_MARKERS : List (List Char) :=
  ["rate schedule".data, "schedule".data, "applicable to".data,
   "availability".data, "character of service".data, "customer charge".data,
   "demand charge".data, "energy charge".data]

/-- Case-insensitive literal match of `p` against a leading segment of `s`;
returns the remainder of `s` on success. -/
def matchLit : List Char → List Char → Option (List Char)
  | [], s => some s
  | _ :: _, [] => none
  | p :: ps, c :: cs => if p.toLower = c.toLower then matchLit ps cs else none

/-- The trailing `\b` of a marker pattern: every marker phrase ends in a
word character, so the boundary holds iff the next character (if any) is
not a word character. -/
def endBoundaryOk : List Char → Bool
  | [] => true
  | c :: _ => !isWordChar c

/-- Try the alternatives of the alternation in their listed order at the
current position; an alternative succeeds when its phrase matches
case-insensitively and the trailing word boundary holds. -/
def tryMarkersAt : List (List Char) → List Char → Option (List Char)
  | [], _ => none
  | m :: ms, s =>
    match matchLit m s with
    | some rest => if endBoundaryOk rest then some rest else tryMarkersAt ms s
    | none => tryMarkersAt ms s

/-- The scan of `MARKER_RE.findall`: attempt a match at every position
(subject to the leading `\b`, i.e. the previous character is not a word
character), count non-overlapping matches, and continue after each match.
`fuel` bounds the recursion; it is instantiated with the string length,
which always suffices because every step consumes at least one character. -/
def scanCount (fuel : Nat) (prevWord : Bool) (s : List Char) : Nat :=
  match fuel, s with
  | 0, _ => 0
  | _, [] => 0
  | fuel + 1, c :: cs =>
    if prevWord then scanCount fuel (isWordChar c) cs
    else
      match tryMarkersAt BOUNDARY_MARKERS (c :: cs) with
      | some rest => 1 + scanCount fuel true rest
      | none => scanCount fuel (isWordChar c) cs

/-- `len(MARKER_RE.findall(txt))`: the number of non-overlapping matches of
the marker alternation in `txt`. -/
def countMatches (txt : String) : Nat :=
  scanCount txt.data.length false txt.data

/-- `PageHit` dataclass. -/
structure PageHit where
  page_index : Nat
  score : Nat
deriving DecidableEq, Repr

/-- The loop body of `score_pages`: iterate pages with a running index,
emitting a `PageHit` exactly for pages with a positive match count. -/
def scorePagesFrom (i : Nat) : List String → List PageHit
  | [] => []
  | txt :: rest =>
    if 0 < countMatches txt then
      ⟨i, countMatches txt⟩ :: scorePagesFrom (i + 1) rest
    else scorePagesFrom (i + 1) rest

/-- `score_pages(pages)`. -/
def score_pages (pages : List String) : List PageHit :=
  scorePagesFrom 0 pages

/-! ## Clustering (`cluster_ranges`) and expansion (`expand_ranges`) -/

/-- The `for idx in idxs[1:]` loop of `cluster_ranges`, carrying the
running cluster `(start, prev)`; the final open cluster is appended after
the loop. -/
def clusterLoop (gap : Nat) (start prev : Nat) : List Nat → List (Nat × Nat)
  | [] => [(start, prev)]
  | idx :: rest =>
    if idx ≤ prev + gap + 1 then clusterLoop gap start idx rest
    else (start, prev) :: clusterLoop gap idx idx rest

/-- The body of `cluster_ranges` on an index list: empty input yields an
empty output, otherwise the merge loop runs from the first index. -/
def clusterTop (gap : Nat) : List Nat → List (Nat × Nat)
  | [] => []
  | i :: rest => clusterLoop gap i i rest

/-- `cluster_ranges(hits, gap)`: sort the page indices ascending
(`sorted(h.page_index for h in hits)`), then run the merge loop; empty
input yields an empty output. -/
def cluster_ranges (hits : List PageHit) (gap : Nat) : List (Nat × Nat) :=
  clusterTop gap (List.insertionSort (· ≤ ·) (hits.map PageHit.page_index))

/-- Modelled from the spec: the Range Clusterer merge rule applied
directly to the hit indices in their given (assumed ascending) order,
with no sorting step — "maintain a running cluster `(start, prev)`
initialized to the first index; … the final open cluster is always
emitted". -/
def clusterRangesRule (gap : Nat) (hits : List PageHit) : List (Nat × Nat) :=
  clusterTop gap (hits.map PageHit.page_index)

/-- `expand_ranges(ranges, num_pages, pad_after)`: each `(s, e)` becomes
`(s, min(num_pages - 1, e + pad_after))`.  Indices are natural numbers;
the source's `num_pages - 1` is total here as truncated subtraction, which
agrees with the source whenever `num_pages` is positive. -/
def expand_ranges (ranges : List (Nat × Nat)) (num_pages : Nat)
    (pad_after : Nat) : List (Nat × Nat) :=
  ranges.map fun r => (r.1, min (num_pages - 1) (r.2 + pad_after))

/-! ## Whitespace normalization (`collapse_ws`) -/

/-- Horizontal whitespace, the character class `[ \t]` of the source. -/
def isHS (c : Char) : Bool := c = ' ' || c = '\t'

/-- Characters removed by Python `str.strip()` (ASCII fragment of Python
whitespace): space, tab, newline, carriage return, vertical tab, form
feed. -/
def isPyWS (c : Char) : Bool :=
  c = ' ' || c = '\t' || c = '\n' || c = '\r' || c = '\x0b' || c = '\x0c'

/-- `s.replace("\r", "")`. -/
def removeCR (l : List Char) : List Char := l.filter (· ≠ '\r')

/-- `re.sub(r"[ \t]+", " ", s)` as a one-pass scan: the flag records
whether the previous character belonged to a horizontal-whitespace run, so
each maximal run is replaced by a single space. -/
def collapseHSAux (inRun : Bool) : List Char → List Char
  | [] => []
  | c :: rest =>
    if isHS c then
      if inRun then collapseHSAux true rest
      else ' ' :: collapseHSAux true rest
    else c :: collapseHSAux false rest

/-- `re.sub(r"\n{3,}", "\n\n", s)` as a one-pass scan: `n` counts the
newlines already emitted for the current newline run, so a maximal run of
`k` newlines is replaced by `min k 2` newlines (runs of one or two are
unchanged, longer runs become exactly two). -/
def collapseNLAux (n : Nat) : List Char → List Char
  | [] => []
  | c :: rest =>
    if c = '\n' then
      if n < 2 then '\n' :: collapseNLAux (n + 1) rest
      else collapseNLAux n rest
    else c :: collapseNLAux 0 rest

/-- Python `str.strip()`: drop leading and trailing whitespace. -/
def pyStrip (l : List Char) : List Char :=
  (((l.dropWhile isPyWS).reverse.dropWhile isPyWS).reverse)

/-- `collapse_ws(s)`:
`re.sub(r"\n{3,}", "\n\n", re.sub(r"[ \t]+", " ", s.replace("\r", ""))).strip()`. -/
def collapse_ws (s : String) : String :=
  ⟨pyStrip (collapseNLAux 0 (collapseHSAux false (removeCR s.data)))⟩

/-! ## JSON object extraction (`extract_json_object`) -/

/-- Left brace, written by code point to keep string literals brace-free. -/
def lbrace : Char := Char.ofNat 123

/-- Right brace. -/
def rbrace : Char := Char.ofNat 125

/-- The backtick character. -/
def btick : Char := Char.ofNat 96

/-- The head-fence stripper `re.sub(r"^```(?:json)?\s*", "", t, flags=IGNORECASE)`,
applied by the source only when `t` starts with three backticks: drop the
backticks, then an optional case-insensitive `json`, then a maximal run of
whitespace. -/
def fenceHeadStrip (l : List Char) : List Char :=
  let l1 := l.drop 3
  let l2 :=
    match matchLit "json".data l1 with
    | some rest => rest
    | none => l1
  l2.dropWhile isPyWS

/-- The tail-fence stripper `re.sub(r"\s*```$", "", t)`: remove a trailing
whitespace-run-plus-three-backticks; following Python's `$`, the match may
also sit just before a single trailing newline, which is then kept. -/
def dropTrailingFence (l : List Char) : List Char :=
  let r := l.reverse
  if r.take 3 = [btick, btick, btick] then
    ((r.drop 3).dropWhile isPyWS).reverse
  else
    match r with
    | '\n' :: r1 =>
      if r1.take 3 = [btick, btick, btick] then
        (((r1.drop 3).dropWhile isPyWS).reverse) ++ ['\n']
      else l
    | _ => l

/-- The normalization prefix of `extract_json_object`: strip, then (only
when the text starts with a code fence) strip the head fence, re-strip,
strip the tail fence, and re-strip. -/
def ejoNormalize (text : String) : List Char :=
  let t := pyStrip text.data
  if t.take 3 = [btick, btick, btick] then
    pyStrip (dropTrailingFence (pyStrip (fenceHeadStrip t)))
  else t

/-- The brace-matching loop of `extract_json_object`, started at the first
`{` of the text with `depth = 0`; returns the consumed segment (in `acc`,
reversed) once a `}` brings the depth to zero, and `none` when the text
ends first. -/
def braceLoop (depth : Int) (acc : List Char) : List Char → Option (List Char)
  | [] => none
  | c :: rest =>
    if c = lbrace then braceLoop (depth + 1) (c :: acc) rest
    else if c = rbrace then
      if depth - 1 = 0 then some (c :: acc).reverse
      else braceLoop (depth - 1) (c :: acc) rest
    else braceLoop depth (c :: acc) rest

/-- `extract_json_object(text)`: after normalization, a text that starts
with `{` and ends with `}` is returned whole; otherwise the segment from
the first `{` to its matching `}` is returned by brace counting;
`ValueError` is modelled as `Except.error`. -/
def extract_json_object (text : String) : Except String String :=
  let t := ejoNormalize text
  if t.head? = some lbrace ∧ t.getLast? = some rbrace then .ok ⟨t⟩
  else
    let s := t.dropWhile (· ≠ lbrace)
    if s = [] then .error "No left brace found in model output"
    else
      match braceLoop 0 [] s with
      | some obj => .ok ⟨obj⟩
      | none => .error "Unbalanced braces in model output"

/-- Net brace depth of a character list: occurrences of `{` minus
occurrences of `}`.  Used to state what "balanced" means. -/
def netDepth : List Char → Int
  | [] => 0
  | c :: l =>
    (if c = lbrace then 1 else 0) - (if c = rbrace then 1 else 0) + netDepth l

/-! ## Excerpt assembly and page markers (`main`, lines 364–366) -/

/-- Fuelled decimal rendering; the fuel dominates the digit count so the
recursion is structural (and hence kernel-reducible). -/
def natToDecAux : Nat → Nat → List Char
  | 0, _ => []
  | fuel + 1, n =>
    if n < 10 then [Char.ofNat (48 + n)]
    else natToDecAux fuel (n / 10) ++ [Char.ofNat (48 + n % 10)]

/-- Decimal rendering of a natural number, as produced by the f-string
`f"{i + 1}"` in the page-marker line. -/
def natToDec (n : Nat) : List Char := natToDecAux (n + 1) n

/-- Decimal parsing, folding digits left to right. -/
def decToNat (l : List Char) : Nat :=
  l.foldl (fun a c => 10 * a + (c.toNat - 48)) 0

/-- The fixed text before the page number in a marker line. -/
def markerPre : List Char := "--- PAGE ".data

/-- The fixed text after the page number in a marker line. -/
def markerSuf : List Char := " ---".data

/-- The marker line for (1-based) page number `n`: `--- PAGE n ---`. -/
def markerLineChars (n : Nat) : List Char :=
  markerPre ++ natToDec n ++ markerSuf

/-- The deterministic marker parser: a line parses as a page marker when,
after trimming surrounding whitespace, it is exactly the fixed delimiter
text around a nonempty digit string; the digits give the page number. -/
def parseMarkerLine (l0 : List Char) : Option Nat :=
  let l := pyStrip l0
  if markerPre.isPrefixOf l then
    let m := l.drop markerPre.length
    let d := m.take (m.length - markerSuf.length)
    if m = d ++ markerSuf ∧ d ≠ [] ∧ d.all (fun c => c.isDigit) then
      some (decToNat d)
    else none
  else none

/-- Split a character list into its lines at each newline. -/
def splitNl : List Char → List (List Char)
  | [] => [[]]
  | c :: rest =>
    if c = '\n' then [] :: splitNl rest
    else
      match splitNl rest with
      | l :: ls => (c :: l) :: ls
      | [] => [[c]]

/-- Re-splitting an excerpt on its page-boundary markers: the ordered list
of page numbers of the lines that parse as marker lines (the segments of
the split are the stretches following each marker). -/
def markerNums (l : List Char) : List Nat :=
  (splitNl l).filterMap parseMarkerLine

/-- One generator element of the excerpt join:
`f"\n--- PAGE {i + 1} ---\n{pages[i]}"`. -/
def pagePart (pages : List String) (i : Nat) : List Char :=
  '\n' :: markerLineChars (i + 1) ++ '\n' :: (pages.getD i "").data

/-- `"\n".join(...)`: concatenate the parts with a single newline between
consecutive parts. -/
def joinNl : List (List Char) → List Char
  | [] => []
  | [x] => x
  | x :: xs => x ++ '\n' :: joinNl xs

/-- The argument of `collapse_ws` in `main`:
`"\n".join(f"\n--- PAGE {i + 1} ---\n{pages[i]}" for i in range(start, end + 1))`. -/
def assembleRaw (pages : List String) (s e : Nat) : List Char :=
  joinNl ((List.range' s (e + 1 - s)).map (pagePart pages))

/-- The assembled, whitespace-normalized excerpt built by `main` for the
selected page range `(s, e)`. -/
def assemble_excerpt (pages : List String) (s e : Nat) : String :=
  collapse_ws ⟨assembleRaw pages s e⟩

/-- The per-page part of the excerpt normalization that acts strictly
inside lines: carriage-return removal followed by horizontal-whitespace
collapsing. -/
def pageNorm (p : String) : List Char :=
  collapseHSAux false (removeCR p.data)

/-- A page is marker-clean when no line of its normalized text parses as
a page-boundary marker line. -/
def cleanPage (p : String) : Prop :=
  ∀ l ∈ splitNl (pageNorm p), parseMarkerLine l = none

/-! ## Command entry point (`main` and `__main__`) -/

/-- The fixed sample path used when no positional argument is given. -/
def defaultPdfPath : String := "documents/LGE-Electric-Rates-010126.pdf"

/-- `sys.argv[1] if len(sys.argv) > 1 else <sample path>` (the head of
`argv` is the script name). -/
def choosePdfPath (argv : List String) : String :=
  match argv with
  | _ :: arg :: _ => arg
  | _ => defaultPdfPath

/-- The return value of `main(pdf_path)`, with its collaborators
abstracted: `pathExists` is `os.path.exists(pdf_path)`, `pages` is the
page-text list produced by the PDF reader, and `downstream` is the joint
outcome of the try-block (completion call, `extract_json_object`, JSON
parse and schema validation), delivering on success the validated
`schedules` list (each schedule abstracted to `Unit`).  Database writes
and logging do not affect the returned code and are omitted.  The result
is `none` when `main` raises instead of returning — which happens exactly
at the unguarded `payload.schedules[0]` access when the validated
schedules list is empty. -/
def mainModel (pathExists : Bool) (pages : List String)
    (downstream : Except String (List Unit)) : Option Nat :=
  if pathExists = false then some 1
  else
    let ranges := expand_ranges (cluster_ranges (score_pages pages) 1)
      pages.length 2
    if ranges = [] then some 2
    else
      match downstream with
      | .error _ => some 3
      | .ok schedules =>
        match schedules with
        | [] => none
        | _ :: _ => some 0

/-! # Theorems -/

/-- **C1.** For every list of PageHits with ascending page indices and
every gap, `cluster_ranges` follows the stated merge rule (running cluster
`(start, prev)` from the first index, absorb while `idx ≤ prev + gap + 1`,
otherwise emit and restart, final cluster always emitted — i.e. it agrees
with the rule applied directly to the given order); in particular with
`gap = 1` hits at 5 and 7 give `[(5, 7)]` while hits at 5 and 8 give
`[(5, 5), (8, 8)]`. -/
theorem cluster_ranges_merge_rule :
    (∀ (hits : List PageHit) (gap : Nat),
      List.Pairwise (fun a b => a.page_index < b.page_index) hits →
      cluster_ranges hits gap = clusterRangesRule gap hits) ∧
    cluster_ranges [⟨5, 1⟩, ⟨7, 1⟩] 1 = [(5, 7)] ∧
    cluster_ranges [⟨5, 1⟩, ⟨8, 1⟩] 1 = [(5, 5), (8, 8)] := by
  refine ⟨?_, by decide, by decide⟩
  intro hits gap hasc
  have hsorted : List.Sorted (· ≤ ·) (hits.map PageHit.page_index) := by
    exact (List.pairwise_map.mpr (hasc.imp fun h => le_of_lt h))
  unfold cluster_ranges clusterRangesRule
  rw [List.Sorted.insertionSort_eq hsorted]

/-- Witness for C1 at a concrete ascending input. -/
theorem cluster_ranges_merge_rule_witness :
    cluster_ranges [⟨3, 2⟩, ⟨6, 1⟩] 0 = clusterRangesRule 0 [⟨3, 2⟩, ⟨6, 1⟩] :=
  cluster_ranges_merge_rule.1 [⟨3, 2⟩, ⟨6, 1⟩] 0 (by decide)

/-- **C3.** For well-formed ranges (`start ≤ end ≤ num_pages - 1`),
positive `num_pages` and any `pad_after`, `expand_ranges` maps each
`(s, e)` to `(s, min (num_pages - 1) (e + pad_after))` 1:1 in order; it
never modifies `start`, never shrinks a range, never exceeds
`num_pages - 1`; and the two documented examples hold. -/
theorem expand_ranges_spec (ranges : List (Nat × Nat))
    (num_pages pad_after : Nat) (hnp : 0 < num_pages)
    (hwf : ∀ r ∈ ranges, r.1 ≤ r.2 ∧ r.2 ≤ num_pages - 1) :
    expand_ranges ranges num_pages pad_after =
      ranges.map (fun r => (r.1, min (num_pages - 1) (r.2 + pad_after))) ∧
    (expand_ranges ranges num_pages pad_after).length = ranges.length ∧
    (∀ (i : Nat) (r r' : Nat × Nat), ranges[i]? = some r →
      (expand_ranges ranges num_pages pad_after)[i]? = some r' →
      r'.1 = r.1 ∧ r.2 ≤ r'.2 ∧ r'.2 ≤ num_pages - 1) ∧
    expand_ranges [(3, 5)] 10 2 = [(3, 7)] ∧
    expand_ranges [(8, 9)] 10 2 = [(8, 9)] := by
  refine ⟨rfl, by simp [expand_ranges], ?_, by decide, by decide⟩
  intro i r r' hr hr'
  have hmem : r ∈ ranges := by
    exact List.getElem?_mem hr
  have hb := hwf r hmem
  unfold expand_ranges at hr'
  rw [List.getElem?_map, hr] at hr'
  simp only [Option.map_some', Option.some.injEq] at hr'
  subst hr'
  refine ⟨rfl, ?_, ?_⟩
  · exact le_min hb.2 (Nat.le_add_right _ _)
  · exact min_le_left _ _

/-- Witness for C3 at the documented concrete inputs. -/
theorem expand_ranges_spec_witness :
    expand_ranges [(3, 5)] 10 2 = [(3, 7)] :=
  (expand_ranges_spec [(3, 5)] 10 2 (by decide) (by decide)).2.2.2.1

/-- Soundness of the scoring loop: every emitted hit points (relative to
the running index) at a page whose match count is positive and equals the
hit's score. -/
theorem scorePagesFrom_sound (pages : List String) :
    ∀ i, ∀ h ∈ scorePagesFrom i pages,
      i ≤ h.page_index ∧
      ∃ txt, pages[h.page_index - i]? = some txt ∧
        h.score = countMatches txt ∧ 0 < countMatches txt := by
  induction pages with
  | nil => intro i h hh; simp [scorePagesFrom] at hh
  | cons txt rest ih =>
    intro i h hh
    simp only [scorePagesFrom] at hh
    by_cases hpos : 0 < countMatches txt
    · rw [if_pos hpos] at hh
      rcases List.mem_cons.mp hh with rfl | hh
      · exact ⟨le_refl _, txt, by simp, rfl, hpos⟩
      · obtain ⟨hle, txt', hget, hsc, hp⟩ := ih (i + 1) h hh
        refine ⟨by omega, txt', ?_, hsc, hp⟩
        have : h.page_index - i = (h.page_index - (i + 1)) + 1 := by omega
        rw [this, List.getElem?_cons_succ]
        exact hget
    · rw [if_neg hpos] at hh
      obtain ⟨hle, txt', hget, hsc, hp⟩ := ih (i + 1) h hh
      refine ⟨by omega, txt', ?_, hsc, hp⟩
      have : h.page_index - i = (h.page_index - (i + 1)) + 1 := by omega
      rw [this, List.getElem?_cons_succ]
      exact hget

/-- Completeness of the scoring loop: every page with a positive match
count produces a hit. -/
theorem scorePagesFrom_complete (pages : List String) :
    ∀ i j txt, pages[j]? = some txt → 0 < countMatches txt →
      (⟨i + j, countMatches txt⟩ : PageHit) ∈ scorePagesFrom i pages := by
  induction pages with
  | nil => intro i j txt hj; simp at hj
  | cons txt0 rest ih =>
    intro i j txt hj hpos
    cases j with
    | zero =>
      simp only [List.getElem?_cons_zero, Option.some.injEq] at hj
      subst hj
      simp only [scorePagesFrom, if_pos hpos, Nat.add_zero]
      exact List.mem_cons_self _ _
    | succ j' =>
      have hmem := ih (i + 1) j' txt (by simpa using hj) hpos
      have : i + (j' + 1) = (i + 1) + j' := by omega
      rw [this]
      simp only [scorePagesFrom]
      by_cases hp0 : 0 < countMatches txt0
      · rw [if_pos hp0]; exact List.mem_cons_of_mem _ hmem
      · rw [if_neg hp0]; exact hmem

/-- The scoring loop emits strictly increasing page indices. -/
theorem scorePagesFrom_pairwise (pages : List String) :
    ∀ i, List.Pairwise (fun a b => a.page_index < b.page_index)
      (scorePagesFrom i pages) := by
  induction pages with
  | nil => intro i; simp [scorePagesFrom]
  | cons txt rest ih =>
    intro i
    simp only [scorePagesFrom]
    by_cases hpos : 0 < countMatches txt
    · rw [if_pos hpos]
      refine List.Pairwise.cons ?_ (ih (i + 1))
      intro b hb
      have := (scorePagesFrom_sound rest (i + 1) b hb).1
      simpa using lt_of_lt_of_le (Nat.lt_succ_self i) this
    · rw [if_neg hpos]; exact ih (i + 1)

/-- **C2.** `score_pages` returns a PageHit exactly for the pages whose
text has at least one non-overlapping match of the marker alternation
(match counting embedded in `countMatches`), with score equal to the match
count, and the returned page indices are strictly increasing; zero-match
pages are omitted. -/
theorem score_pages_spec (pages : List String) :
    (∀ h ∈ score_pages pages,
      ∃ txt, pages[h.page_index]? = some txt ∧
        h.score = countMatches txt ∧ 0 < countMatches txt) ∧
    (∀ (j : Nat) (txt : String), pages[j]? = some txt →
      0 < countMatches txt →
      (⟨j, countMatches txt⟩ : PageHit) ∈ score_pages pages) ∧
    List.Pairwise (fun a b => a.page_index < b.page_index)
      (score_pages pages) := by
  refine ⟨?_, ?_, scorePagesFrom_pairwise pages 0⟩
  · intro h hh
    obtain ⟨_, txt, hget, hsc, hp⟩ := scorePagesFrom_sound pages 0 h hh
    exact ⟨txt, by simpa using hget, hsc, hp⟩
  · intro j txt hj hpos
    have := scorePagesFrom_complete pages 0 j txt hj hpos
    simpa using this

/-- Witness for C2 at a concrete page list. -/
theorem score_pages_spec_witness :
    (⟨1, countMatches "a rate schedule"⟩ : PageHit) ∈
      score_pages ["intro", "a rate schedule", "appendix"] :=
  (score_pages_spec ["intro", "a rate schedule", "appendix"]).2.1 1
    "a rate schedule" (by decide) (by decide)

/-- Bounds invariant of the merge loop: on a sorted tail whose elements
dominate `prev`, every emitted range `r` has `start ≤ r.1 ≤ r.2`. -/
theorem clusterLoop_bounds (gap : Nat) :
    ∀ (l : List Nat) (start prev : Nat), start ≤ prev →
      List.Pairwise (· ≤ ·) l → (∀ x ∈ l, prev ≤ x) →
      ∀ r ∈ clusterLoop gap start prev l, start ≤ r.1 ∧ r.1 ≤ r.2 := by
  intro l
  induction l with
  | nil =>
    intro start prev hsp _ _ r hr
    simp only [clusterLoop, List.mem_singleton] at hr
    subst hr
    exact ⟨le_refl _, hsp⟩
  | cons idx rest ih =>
    intro start prev hsp hpw hlb r hr
    obtain ⟨hhd, htl⟩ := List.pairwise_cons.mp hpw
    have hpi : prev ≤ idx := hlb idx (List.mem_cons_self _ _)
    simp only [clusterLoop] at hr
    by_cases hle : idx ≤ prev + gap + 1
    · rw [if_pos hle] at hr
      exact ih start idx (le_trans hsp hpi) htl hhd r hr
    · rw [if_neg hle] at hr
      rcases List.mem_cons.mp hr with rfl | hr
      · exact ⟨le_refl _, hsp⟩
      · have := ih idx idx (le_refl _) htl hhd r hr
        exact ⟨by omega, this.2⟩

/-- Separation invariant of the merge loop: consecutive emitted ranges are
strictly separated (`r₁.2 < r₂.1`, pairwise). -/
theorem clusterLoop_pairwise (gap : Nat) :
    ∀ (l : List Nat) (start prev : Nat), start ≤ prev →
      List.Pairwise (· ≤ ·) l → (∀ x ∈ l, prev ≤ x) →
      List.Pairwise (fun r1 r2 : Nat × Nat => r1.2 < r2.1)
        (clusterLoop gap start prev l) := by
  intro l
  induction l with
  | nil => intro start prev _ _ _; simp [clusterLoop]
  | cons idx rest ih =>
    intro start prev hsp hpw hlb
    obtain ⟨hhd, htl⟩ := List.pairwise_cons.mp hpw
    have hpi : prev ≤ idx := hlb idx (List.mem_cons_self _ _)
    simp only [clusterLoop]
    by_cases hle : idx ≤ prev + gap + 1
    · rw [if_pos hle]
      exact ih start idx (le_trans hsp hpi) htl hhd
    · rw [if_neg hle]
      refine List.Pairwise.cons ?_ (ih idx idx (le_refl _) htl hhd)
      intro r hr
      have := clusterLoop_bounds gap rest idx idx (le_refl _) htl hhd r hr
      simp only
      omega

/-- Coverage invariant of the merge loop: every index in the closed
interval `[start, prev]` and every element of the tail lies in some
emitted range. -/
theorem clusterLoop_covers (gap : Nat) :
    ∀ (l : List Nat) (start prev : Nat), start ≤ prev →
      List.Pairwise (· ≤ ·) l → (∀ x ∈ l, prev ≤ x) →
      ∀ x, ((start ≤ x ∧ x ≤ prev) ∨ x ∈ l) →
        ∃ r ∈ clusterLoop gap start prev l, r.1 ≤ x ∧ x ≤ r.2 := by
  intro l
  induction l with
  | nil =>
    intro start prev hsp _ _ x hx
    rcases hx with ⟨h1, h2⟩ | hx
    · exact ⟨(start, prev), by simp [clusterLoop], h1, h2⟩
    · simp at hx
  | cons idx rest ih =>
    intro start prev hsp hpw hlb x hx
    obtain ⟨hhd, htl⟩ := List.pairwise_cons.mp hpw
    have hpi : prev ≤ idx := hlb idx (List.mem_cons_self _ _)
    simp only [clusterLoop]
    by_cases hle : idx ≤ prev + gap + 1
    · rw [if_pos hle]
      refine ih start idx (le_trans hsp hpi) htl hhd x ?_
      rcases hx with ⟨h1, h2⟩ | hx
      · exact Or.inl ⟨h1, by omega⟩
      · rcases List.mem_cons.mp hx with rfl | hx
        · exact Or.inl ⟨le_trans hsp hpi, le_refl _⟩
        · exact Or.inr hx
    · rw [if_neg hle]
      rcases hx with ⟨h1, h2⟩ | hx
      · exact ⟨(start, prev), List.mem_cons_self _ _, h1, h2⟩
      · rcases List.mem_cons.mp hx with rfl | hx
        · obtain ⟨r, hr, hb⟩ :=
            ih x x (le_refl _) htl hhd x (Or.inl ⟨le_refl _, le_refl _⟩)
          exact ⟨r, List.mem_cons_of_mem _ hr, hb⟩
        · obtain ⟨r, hr, hb⟩ := ih idx idx (le_refl _) htl hhd x (Or.inr hx)
          exact ⟨r, List.mem_cons_of_mem _ hr, hb⟩

/-- Every endpoint of an emitted range is either the carried cluster state
or an element of the remaining tail. -/
theorem clusterLoop_endpoints (gap : Nat) :
    ∀ (l : List Nat) (start prev : Nat),
      ∀ r ∈ clusterLoop gap start prev l,
        (r.1 = start ∨ r.1 ∈ l) ∧ (r.2 = prev ∨ r.2 ∈ l) := by
  intro l
  induction l with
  | nil =>
    intro start prev r hr
    simp only [clusterLoop, List.mem_singleton] at hr
    subst hr
    simp
  | cons idx rest ih =>
    intro start prev r hr
    simp only [clusterLoop] at hr
    by_cases hle : idx ≤ prev + gap + 1
    · rw [if_pos hle] at hr
      obtain ⟨h1, h2⟩ := ih start idx r hr
      constructor
      · rcases h1 with h1 | h1
        · exact Or.inl h1
        · exact Or.inr (List.mem_cons_of_mem _ h1)
      · rcases h2 with h2 | h2
        · exact Or.inr (h2 ▸ List.mem_cons_self _ _)
        · exact Or.inr (List.mem_cons_of_mem _ h2)
    · rw [if_neg hle] at hr
      rcases List.mem_cons.mp hr with rfl | hr
      · simp
      · obtain ⟨h1, h2⟩ := ih idx idx r hr
        constructor
        · rcases h1 with h1 | h1
          · exact Or.inr (h1 ▸ List.mem_cons_self _ _)
          · exact Or.inr (List.mem_cons_of_mem _ h1)
        · rcases h2 with h2 | h2
          · exact Or.inr (h2 ▸ List.mem_cons_self _ _)
          · exact Or.inr (List.mem_cons_of_mem _ h2)

/-- Master soundness of `cluster_ranges` for arbitrary hit lists: each
range is well-formed, ranges are pairwise separated, and every hit index
is covered by some range. -/
theorem cluster_ranges_sound (hits : List PageHit) (gap : Nat) :
    (∀ r ∈ cluster_ranges hits gap, r.1 ≤ r.2) ∧
    List.Pairwise (fun r1 r2 : Nat × Nat => r1.2 < r2.1)
      (cluster_ranges hits gap) ∧
    (∀ h ∈ hits, ∃ r ∈ cluster_ranges hits gap,
      r.1 ≤ h.page_index ∧ h.page_index ≤ r.2) := by
  have hperm := List.perm_insertionSort (· ≤ ·) (hits.map PageHit.page_index)
  have hsorted := List.sorted_insertionSort (· ≤ ·)
    (hits.map PageHit.page_index)
  unfold cluster_ranges clusterTop
  rcases hl : List.insertionSort (· ≤ ·) (hits.map PageHit.page_index) with
    _ | ⟨i, rest⟩
  · rw [hl] at hperm
    refine ⟨by simp, by simp, ?_⟩
    intro h hh
    have : h.page_index ∈ hits.map PageHit.page_index :=
      List.mem_map_of_mem _ hh
    rw [← hperm.mem_iff] at this
    simp at this
  · rw [hl] at hperm hsorted
    obtain ⟨hhd, htl⟩ := List.pairwise_cons.mp hsorted
    refine ⟨?_, clusterLoop_pairwise gap rest i i (le_refl _) htl hhd, ?_⟩
    · intro r hr
      exact (clusterLoop_bounds gap rest i i (le_refl _) htl hhd r hr).2
    · intro h hh
      have hmem : h.page_index ∈ i :: rest := by
        rw [hperm.mem_iff]
        exact List.mem_map_of_mem _ hh
      refine clusterLoop_covers gap rest i i (le_refl _) htl hhd
        h.page_index ?_
      rcases List.mem_cons.mp hmem with heq | hmem
      · exact Or.inl ⟨le_of_eq heq.symm, le_of_eq heq⟩
      · exact Or.inr hmem

/-- **C4.** For hit lists sorted by `page_index` and any gap, the ranges
of `cluster_ranges` partition the hit indices: every hit index falls in
exactly one returned range, ranges are mutually non-overlapping
(`r₁.2 < r₂.1` pairwise in order), each satisfies `start ≤ end`, the
starts are strictly ascending, and the empty hit list yields `[]` for
every gap. -/
theorem cluster_ranges_partition :
    (∀ (hits : List PageHit) (gap : Nat),
      List.Pairwise (fun a b => a.page_index ≤ b.page_index) hits →
      (∀ h ∈ hits, ∃! r : Nat × Nat, r ∈ cluster_ranges hits gap ∧
        r.1 ≤ h.page_index ∧ h.page_index ≤ r.2) ∧
      List.Pairwise (fun r1 r2 : Nat × Nat => r1.2 < r2.1)
        (cluster_ranges hits gap) ∧
      (∀ r ∈ cluster_ranges hits gap, r.1 ≤ r.2) ∧
      List.Pairwise (fun r1 r2 : Nat × Nat => r1.1 < r2.1)
        (cluster_ranges hits gap)) ∧
    (∀ gap : Nat, cluster_ranges [] gap = []) := by
  refine ⟨?_, fun gap => rfl⟩
  intro hits gap _hsorted
  obtain ⟨hwf, hpw, hcov⟩ := cluster_ranges_sound hits gap
  have huniq : ∀ x : Nat, ∀ r1 ∈ cluster_ranges hits gap,
      ∀ r2 ∈ cluster_ranges hits gap,
      r1.1 ≤ x → x ≤ r1.2 → r2.1 ≤ x → x ≤ r2.2 → r1 = r2 := by
    intro x r1 h1 r2 h2 ha hb hc hd
    by_contra hne
    have hsym : List.Pairwise
        (fun r1 r2 : Nat × Nat => r1.2 < r2.1 ∨ r2.2 < r1.1)
        (cluster_ranges hits gap) := hpw.imp fun h => Or.inl h
    have hforall := hsym.forall
      (fun a b h => by rcases h with h | h; exact Or.inr h; exact Or.inl h)
    rcases hforall h1 h2 hne with h | h <;> omega
  refine ⟨?_, hpw, hwf, ?_⟩
  · intro h hh
    obtain ⟨r, hr, hb1, hb2⟩ := hcov h hh
    refine ⟨r, ⟨hr, hb1, hb2⟩, ?_⟩
    intro r' ⟨hr', hc1, hc2⟩
    exact huniq h.page_index r' hr' r hr hc1 hc2 hb1 hb2
  · refine List.Pairwise.imp_of_mem ?_ hpw
    intro r1 r2 h1 _h2 hlt
    have := hwf r1 h1
    omega

/-- Witness for C4 at a concrete sorted hit list. -/
theorem cluster_ranges_partition_witness :
    ∃! r : Nat × Nat, r ∈ cluster_ranges [⟨1, 1⟩, ⟨4, 2⟩] 1 ∧
      r.1 ≤ 1 ∧ 1 ≤ r.2 :=
  (cluster_ranges_partition.1 [⟨1, 1⟩, ⟨4, 2⟩] 1 (by decide)).1
    ⟨1, 1⟩ (by decide)

/-- **C10.** Both endpoints of every range returned by `cluster_ranges`
are `page_index` values of input hits. -/
theorem cluster_ranges_endpoints_are_hits (hits : List PageHit) (gap : Nat)
    (hne : hits ≠ []) :
    ∀ r ∈ cluster_ranges hits gap,
      (∃ h ∈ hits, h.page_index = r.1) ∧
      (∃ h ∈ hits, h.page_index = r.2) := by
  clear hne
  have hperm := List.perm_insertionSort (· ≤ ·) (hits.map PageHit.page_index)
  unfold cluster_ranges clusterTop
  rcases hl : List.insertionSort (· ≤ ·) (hits.map PageHit.page_index) with
    _ | ⟨i, rest⟩
  · simp
  · rw [hl] at hperm
    intro r hr
    obtain ⟨h1, h2⟩ := clusterLoop_endpoints gap rest i i r hr
    constructor
    · have : r.1 ∈ i :: rest := by
        rcases h1 with h1 | h1
        · exact h1 ▸ List.mem_cons_self _ _
        · exact List.mem_cons_of_mem _ h1
      rw [hperm.mem_iff] at this
      obtain ⟨h, hh, hpe⟩ := List.mem_map.mp this
      exact ⟨h, hh, hpe⟩
    · have : r.2 ∈ i :: rest := by
        rcases h2 with h2 | h2
        · exact h2 ▸ List.mem_cons_self _ _
        · exact List.mem_cons_of_mem _ h2
      rw [hperm.mem_iff] at this
      obtain ⟨h, hh, hpe⟩ := List.mem_map.mp this
      exact ⟨h, hh, hpe⟩

/-- Witness for C10 at a concrete hit list. -/
theorem cluster_ranges_endpoints_are_hits_witness :
    (∃ h ∈ [(⟨2, 1⟩ : PageHit), ⟨6, 1⟩, ⟨3, 1⟩], h.page_index = 2) ∧
    (∃ h ∈ [(⟨2, 1⟩ : PageHit), ⟨6, 1⟩, ⟨3, 1⟩], h.page_index = 3) :=
  cluster_ranges_endpoints_are_hits [⟨2, 1⟩, ⟨6, 1⟩, ⟨3, 1⟩] 0
    (by decide) (2, 3) (by decide)

/-- In a sorted list whose head recurs in the tail, the tail starts with
the head. -/
theorem sorted_head_mem_tail (a : Nat) (t : List Nat)
    (hpw : List.Pairwise (· ≤ ·) (a :: t)) (hmem : a ∈ t) :
    ∃ t', t = a :: t' := by
  obtain ⟨hhd, htl⟩ := List.pairwise_cons.mp hpw
  cases t with
  | nil => simp at hmem
  | cons b t' =>
    have hab : a ≤ b := hhd b (List.mem_cons_self _ _)
    have hba : b ≤ a := by
      rcases List.mem_cons.mp hmem with heq | hmem'
      · exact le_of_eq heq.symm
      · exact (List.pairwise_cons.mp htl).1 a hmem'
    have : b = a := le_antisymm hba hab
    exact ⟨t', by rw [this]⟩

/-- Absorbing an index equal to the current `prev` leaves the merge loop
unchanged. -/
theorem clusterLoop_cons_self (gap start a : Nat) (l : List Nat) :
    clusterLoop gap start a (a :: l) = clusterLoop gap start a l := by
  have ha : a ≤ a + gap + 1 := by omega
  simp only [clusterLoop, if_pos ha]

/-- An immediately repeated index is invisible to the merge loop. -/
theorem clusterLoop_cons_dup (gap start prev a : Nat) (l : List Nat) :
    clusterLoop gap start prev (a :: a :: l) =
      clusterLoop gap start prev (a :: l) := by
  have ha : a ≤ a + gap + 1 := by omega
  by_cases h : a ≤ prev + gap + 1
  · simp only [clusterLoop, if_pos h, if_pos ha]
  · simp only [clusterLoop, if_neg h, if_pos ha]

/-- On a sorted tail the merge loop only depends on the set of indices:
duplicates may be removed. -/
theorem clusterLoop_dedup (gap : Nat) :
    ∀ (l : List Nat), List.Pairwise (· ≤ ·) l →
      ∀ start prev, clusterLoop gap start prev l =
        clusterLoop gap start prev l.dedup := by
  intro l
  induction l with
  | nil => intro _ s p; rfl
  | cons a t ih =>
    intro hpw s p
    obtain ⟨hhd, htl⟩ := List.pairwise_cons.mp hpw
    by_cases hmem : a ∈ t
    · obtain ⟨t', rfl⟩ := sorted_head_mem_tail a t hpw hmem
      rw [List.dedup_cons_of_mem hmem, clusterLoop_cons_dup]
      exact ih htl s p
    · rw [List.dedup_cons_of_not_mem hmem]
      by_cases h : a ≤ p + gap + 1
      · simp only [clusterLoop, if_pos h]
        exact ih htl s a
      · simp only [clusterLoop, if_neg h]
        rw [ih htl a a]

/-- On a sorted index list the clustering result only depends on the set
of indices. -/
theorem clusterTop_dedup (gap : Nat) :
    ∀ (l : List Nat), List.Pairwise (· ≤ ·) l →
      clusterTop gap l = clusterTop gap l.dedup := by
  intro l
  induction l with
  | nil => intro _; rfl
  | cons a t ih =>
    intro hpw
    obtain ⟨_, htl⟩ := List.pairwise_cons.mp hpw
    by_cases hmem : a ∈ t
    · obtain ⟨t', rfl⟩ := sorted_head_mem_tail a t hpw hmem
      rw [List.dedup_cons_of_mem hmem]
      show clusterLoop gap a a (a :: t') = clusterTop gap (a :: t').dedup
      rw [clusterLoop_cons_self]
      exact ih htl
    · rw [List.dedup_cons_of_not_mem hmem]
      show clusterLoop gap a a t = clusterLoop gap a a t.dedup
      exact clusterLoop_dedup gap t htl a a

/-- **C9.** Clustering is deterministic and order-insensitive: two hit
lists containing the same set of `page_index` values (in any order, with
any multiplicities and scores) cluster to identical range sequences,
because the implementation sorts the indices before clustering. -/
theorem cluster_ranges_deterministic (hits1 hits2 : List PageHit)
    (gap : Nat)
    (hset : (hits1.map PageHit.page_index).toFinset =
            (hits2.map PageHit.page_index).toFinset) :
    cluster_ranges hits1 gap = cluster_ranges hits2 gap := by
  unfold cluster_ranges
  have hs1 := List.sorted_insertionSort (· ≤ ·)
    (hits1.map PageHit.page_index)
  have hs2 := List.sorted_insertionSort (· ≤ ·)
    (hits2.map PageHit.page_index)
  have hp1 := List.perm_insertionSort (· ≤ ·)
    (hits1.map PageHit.page_index)
  have hp2 := List.perm_insertionSort (· ≤ ·)
    (hits2.map PageHit.page_index)
  have hfs : (List.insertionSort (· ≤ ·)
        (hits1.map PageHit.page_index)).toFinset =
      (List.insertionSort (· ≤ ·)
        (hits2.map PageHit.page_index)).toFinset := by
    rw [List.toFinset_eq_of_perm _ _ hp1, List.toFinset_eq_of_perm _ _ hp2]
    exact hset
  have hdperm := List.toFinset_eq_iff_perm_dedup.mp hfs
  have hsd1 : List.Sorted (· ≤ ·) (List.insertionSort (· ≤ ·)
      (hits1.map PageHit.page_index)).dedup :=
    List.Pairwise.sublist (List.dedup_sublist _) hs1
  have hsd2 : List.Sorted (· ≤ ·) (List.insertionSort (· ≤ ·)
      (hits2.map PageHit.page_index)).dedup :=
    List.Pairwise.sublist (List.dedup_sublist _) hs2
  have hdeq := List.eq_of_perm_of_sorted hdperm hsd1 hsd2
  rw [clusterTop_dedup gap _ hs1, clusterTop_dedup gap _ hs2, hdeq]

/-- Witness for C9: two differently ordered hit lists with the same index
set (different multiplicities and scores) cluster identically. -/
theorem cluster_ranges_deterministic_witness :
    cluster_ranges [⟨7, 1⟩, ⟨5, 2⟩, ⟨5, 9⟩] 1 =
      cluster_ranges [⟨5, 1⟩, ⟨7, 3⟩] 1 :=
  cluster_ranges_deterministic [⟨7, 1⟩, ⟨5, 2⟩, ⟨5, 9⟩] [⟨5, 1⟩, ⟨7, 3⟩] 1
    (by decide)

/-- Decompose an infix of a cons cell: a nonempty pattern inside `c :: l`
either starts at the head or lies inside the tail. -/
theorem infix_cons_elim {α : Type} {p : List α} {c : α} {l : List α}
    (h : p <:+: c :: l) (hne : p ≠ []) :
    (∃ q, p = c :: q ∧ q <+: l) ∨ p <:+: l := by
  obtain ⟨s, t, hst⟩ := h
  cases s with
  | nil =>
    cases p with
    | nil => exact absurd rfl hne
    | cons a q =>
      simp only [List.nil_append, List.cons_append, List.cons.injEq] at hst
      exact Or.inl ⟨q, by rw [hst.1], ⟨t, hst.2⟩⟩
  | cons a s' =>
    simp only [List.cons_append, List.cons.injEq] at hst
    exact Or.inr ⟨s', t, hst.2⟩

/-- A nonempty pattern is not an infix of the empty list. -/
theorem not_infix_nil {α : Type} {p : List α} (hne : p ≠ []) :
    ¬ p <:+: ([] : List α) := by
  intro h
  exact hne (List.eq_nil_of_length_eq_zero
    (Nat.le_zero.mp (by simpa using h.length_le)))

/-- Every character emitted by the horizontal-whitespace collapser is a
space or one of the input characters. -/
theorem mem_collapseHSAux {c : Char} :
    ∀ (l : List Char) (b : Bool), c ∈ collapseHSAux b l → c = ' ' ∨ c ∈ l := by
  intro l
  induction l with
  | nil => intro b h; simp [collapseHSAux] at h
  | cons a rest ih =>
    intro b h
    simp only [collapseHSAux] at h
    by_cases ha : isHS a
    · rw [if_pos ha] at h
      cases b with
      | true =>
        rcases ih true h with h | h
        · exact Or.inl h
        · exact Or.inr (List.mem_cons_of_mem _ h)
      | false =>
        rcases List.mem_cons.mp h with rfl | h
        · exact Or.inl rfl
        · rcases ih true h with h | h
          · exact Or.inl h
          · exact Or.inr (List.mem_cons_of_mem _ h)
    · rw [if_neg ha] at h
      rcases List.mem_cons.mp h with rfl | h
      · exact Or.inr (List.mem_cons_self _ _)
      · rcases ih false h with h | h
        · exact Or.inl h
        · exact Or.inr (List.mem_cons_of_mem _ h)

/-- The horizontal-whitespace collapser never emits a tab: tabs are
horizontal whitespace and every run is replaced by a single space. -/
theorem tab_not_mem_collapseHSAux :
    ∀ (l : List Char) (b : Bool), '\t' ∉ collapseHSAux b l := by
  intro l
  induction l with
  | nil => intro b h; simp [collapseHSAux] at h
  | cons a rest ih =>
    intro b h
    simp only [collapseHSAux] at h
    by_cases ha : isHS a
    · rw [if_pos ha] at h
      cases b with
      | true => exact ih true h
      | false =>
        rcases List.mem_cons.mp h with heq | h
        · exact absurd heq (by decide)
        · exact ih true h
    · rw [if_neg ha] at h
      rcases List.mem_cons.mp h with heq | h
      · rw [← heq] at ha
        exact ha (by decide)
      · exact ih false h

/-- After the horizontal-whitespace collapser there are no two adjacent
spaces; moreover with the in-run flag set the output never starts with a
space. -/
theorem collapseHSAux_no_double (l : List Char) :
    ∀ b, ¬ ([' ', ' '] <:+: collapseHSAux b l) ∧
      ((collapseHSAux true l).head? ≠ some ' ') := by
  induction l with
  | nil =>
    intro b
    exact ⟨not_infix_nil (by decide), by simp [collapseHSAux]⟩
  | cons a rest ih =>
    intro b
    constructor
    · simp only [collapseHSAux]
      by_cases ha : isHS a
      · rw [if_pos ha]
        cases b with
        | true => exact (ih true).1
        | false =>
          simp only [Bool.false_eq_true, if_false]
          intro hinf
          rcases infix_cons_elim hinf (by decide) with ⟨q, hq, hpre⟩ | hinf
          · simp only [List.cons.injEq] at hq
            obtain ⟨rfl⟩ := hq.2
            obtain ⟨t, ht⟩ := hpre
            have : (collapseHSAux true rest).head? = some ' ' := by
              rw [← ht]; rfl
            exact (ih true).2 this
          · exact (ih true).1 hinf
      · rw [if_neg ha]
        intro hinf
        rcases infix_cons_elim hinf (by decide) with ⟨q, hq, _⟩ | hinf
        · have : a = ' ' := (List.cons.injEq _ _ _ _ |>.mp hq.symm).1
          rw [this] at ha
          exact ha (by decide)
        · exact (ih false).1 hinf
    · simp only [collapseHSAux]
      by_cases ha : isHS a
      · rw [if_pos ha]
        exact (ih true).2
      · rw [if_neg ha]
        simp only [List.head?_cons, ne_eq, Option.some.injEq]
        intro heq
        rw [heq] at ha
        exact ha (by decide)

/-- The newline collapser only deletes characters. -/
theorem mem_collapseNLAux {c : Char} :
    ∀ (l : List Char) (n : Nat), c ∈ collapseNLAux n l → c ∈ l := by
  intro l
  induction l with
  | nil => intro n h; simp [collapseNLAux] at h
  | cons a rest ih =>
    intro n h
    simp only [collapseNLAux] at h
    by_cases ha : a = '\n'
    · rw [if_pos ha] at h
      by_cases hn : n < 2
      · rw [if_pos hn] at h
        rcases List.mem_cons.mp h with rfl | h
        · exact ha ▸ List.mem_cons_self _ _
        · exact List.mem_cons_of_mem _ (ih (n + 1) h)
      · rw [if_neg hn] at h
        exact List.mem_cons_of_mem _ (ih n h)
    · rw [if_neg ha] at h
      rcases List.mem_cons.mp h with rfl | h
      · exact List.mem_cons_self _ _
      · exact List.mem_cons_of_mem _ (ih 0 h)

/-- Leading-newline bound of the newline collapser: with `n` newlines
already emitted for the current run, the output starts with at most
`2 - n` newlines. -/
theorem collapseNLAux_lead (l : List Char) :
    ∀ n, ((collapseNLAux n l).takeWhile (fun c => c = '\n')).length ≤ 2 - n := by
  induction l with
  | nil => intro n; simp [collapseNLAux]
  | cons a rest ih =>
    intro n
    simp only [collapseNLAux]
    by_cases ha : a = '\n'
    · rw [if_pos ha]
      by_cases hn : n < 2
      · rw [if_pos hn]
        have := ih (n + 1)
        simp only [List.takeWhile_cons, decide_True, if_true,
          List.length_cons]
        omega
      · rw [if_neg hn]
        have := ih n
        omega
    · rw [if_neg ha]
      simp [List.takeWhile_cons, ha]

/-- After the newline collapser there are never three consecutive
newlines. -/
theorem collapseNLAux_no_triple (l : List Char) :
    ∀ n, ¬ (['\n', '\n', '\n'] <:+: collapseNLAux n l) := by
  induction l with
  | nil => intro n; exact not_infix_nil (by decide)
  | cons a rest ih =>
    intro n
    simp only [collapseNLAux]
    by_cases ha : a = '\n'
    · rw [if_pos ha]
      by_cases hn : n < 2
      · rw [if_pos hn]
        intro h
        rcases infix_cons_elim h (by decide) with ⟨q, hq, hpre⟩ | h
        · simp only [List.cons.injEq] at hq
          obtain ⟨rfl⟩ := hq.2
          obtain ⟨t, ht⟩ := hpre
          have hlead := collapseNLAux_lead rest (n + 1)
          rw [← ht] at hlead
          simp [List.takeWhile_cons] at hlead
          omega
        · exact ih (n + 1) h
      · rw [if_neg hn]
        exact ih n
    · rw [if_neg ha]
      intro h
      rcases infix_cons_elim h (by decide) with ⟨q, hq, _⟩ | h
      · exact ha ((List.cons.injEq _ _ _ _ |>.mp hq.symm).1)
      · exact ih 0 h

/-- With no newlines pending, the newline collapser preserves a
non-newline head character. -/
theorem collapseNLAux_head0 (rest : List Char) :
    ∀ c', c' ≠ '\n' → (collapseNLAux 0 rest).head? = some c' →
      rest.head? = some c' := by
  cases rest with
  | nil => intro c' _ h; simp [collapseNLAux] at h
  | cons d t =>
    intro c' hc h
    simp only [collapseNLAux] at h
    by_cases hd : d = '\n'
    · rw [if_pos hd, if_pos (by omega)] at h
      simp only [List.head?_cons, Option.some.injEq] at h
      exact absurd h.symm hc
    · rw [if_neg hd] at h
      simpa using h

/-- The newline collapser preserves the absence of double spaces. -/
theorem collapseNLAux_no_double :
    ∀ (l : List Char), ¬ ([' ', ' '] <:+: l) →
      ∀ n, ¬ ([' ', ' '] <:+: collapseNLAux n l) := by
  intro l
  induction l with
  | nil => intro _ n; exact not_infix_nil (by decide)
  | cons a rest ih =>
    intro hl n
    have hrest : ¬ ([' ', ' '] <:+: rest) := by
      intro h
      exact hl (h.trans (List.suffix_cons a rest).isInfix)
    simp only [collapseNLAux]
    by_cases ha : a = '\n'
    · rw [if_pos ha]
      by_cases hn : n < 2
      · rw [if_pos hn]
        intro h
        rcases infix_cons_elim h (by decide) with ⟨q, hq, _⟩ | h
        · exact absurd ((List.cons.injEq _ _ _ _ |>.mp hq.symm).1) (by decide)
        · exact ih hrest (n + 1) h
      · rw [if_neg hn]
        exact ih hrest n
    · rw [if_neg ha]
      intro h
      rcases infix_cons_elim h (by decide) with ⟨q, hq, hpre⟩ | h
      · obtain ⟨hac, hq2⟩ := List.cons.injEq _ _ _ _ |>.mp hq.symm
        obtain ⟨rfl⟩ := hq2
        obtain ⟨t, ht⟩ := hpre
        have hhd : (collapseNLAux 0 rest).head? = some ' ' := by
          rw [← ht]; rfl
        have := collapseNLAux_head0 rest ' ' (by decide) hhd
        obtain ⟨rest', hrest'⟩ : ∃ rest', rest = ' ' :: rest' := by
          cases rest with
          | nil => simp at this
          | cons x xs =>
            simp only [List.head?_cons, Option.some.injEq] at this
            exact ⟨xs, by rw [this]⟩
        apply hl
        rw [hac, hrest']
        exact ⟨[], rest', rfl⟩
      · exact ih hrest 0 h

/-- Stripping yields an infix of the original list. -/
theorem pyStrip_infix (l : List Char) : pyStrip l <:+: l := by
  unfold pyStrip
  have h1 : l.dropWhile isPyWS <:+ l := List.dropWhile_suffix isPyWS
  have h2 : ((l.dropWhile isPyWS).reverse.dropWhile isPyWS).reverse <+:
      l.dropWhile isPyWS := by
    apply List.reverse_suffix.mp
    simpa using List.dropWhile_suffix isPyWS
  exact h2.isInfix.trans h1.isInfix

/-- The head surviving `dropWhile` fails the predicate. -/
theorem head_dropWhile_not (p : Char → Bool) :
    ∀ (l : List Char) (c : Char), (l.dropWhile p).head? = some c →
      p c = false := by
  intro l
  induction l with
  | nil => intro c h; simp at h
  | cons a rest ih =>
    intro c h
    rw [List.dropWhile_cons] at h
    by_cases ha : p a
    · rw [if_pos ha] at h
      exact ih c h
    · rw [if_neg ha] at h
      simp only [List.head?_cons, Option.some.injEq] at h
      rw [← h]
      exact Bool.eq_false_iff.mpr ha

/-- The head of the stripped list is not whitespace. -/
theorem pyStrip_head (l : List Char) :
    ∀ c, (pyStrip l).head? = some c → isPyWS c = false := by
  intro c h
  have hpre : pyStrip l <+: l.dropWhile isPyWS := by
    unfold pyStrip
    apply List.reverse_suffix.mp
    simpa using List.dropWhile_suffix isPyWS
  obtain ⟨t, ht⟩ := hpre
  cases hq : pyStrip l with
  | nil => rw [hq] at h; simp at h
  | cons d q =>
    rw [hq] at h ht
    simp only [List.head?_cons, Option.some.injEq] at h
    have hhd : (l.dropWhile isPyWS).head? = some d := by
      rw [← ht]; rfl
    rw [← h]
    exact head_dropWhile_not isPyWS l d hhd

/-- The last element of the stripped list is not whitespace. -/
theorem pyStrip_getLast (l : List Char) :
    ∀ c, (pyStrip l).getLast? = some c → isPyWS c = false := by
  intro c h
  unfold pyStrip at h
  rw [List.getLast?_reverse] at h
  exact head_dropWhile_not isPyWS _ c h

/-- **C8.** `collapse_ws` output contains no carriage return and no tab,
never two adjacent spaces (horizontal runs collapse to one space), never
three consecutive newlines (longer runs collapse to two), and is trimmed
at both ends; representative positive examples included. -/
theorem collapse_ws_spec (s : String) :
    '\r' ∉ (collapse_ws s).data ∧
    '\t' ∉ (collapse_ws s).data ∧
    ¬ ([' ', ' '] <:+: (collapse_ws s).data) ∧
    ¬ (['\n', '\n', '\n'] <:+: (collapse_ws s).data) ∧
    (∀ c, (collapse_ws s).data.head? = some c → isPyWS c = false) ∧
    (∀ c, (collapse_ws s).data.getLast? = some c → isPyWS c = false) ∧
    collapse_ws "a \t b" = "a b" ∧
    collapse_ws "a\n\n\n\n\nb" = "a\n\nb" ∧
    collapse_ws " x\r\ny " = "x\ny" := by
  have hdata : (collapse_ws s).data =
      pyStrip (collapseNLAux 0 (collapseHSAux false (removeCR s.data))) := rfl
  have hinfix := pyStrip_infix
    (collapseNLAux 0 (collapseHSAux false (removeCR s.data)))
  refine ⟨?_, ?_, ?_, ?_, ?_, ?_, by decide, by decide, by decide⟩
  · intro hmem
    rw [hdata] at hmem
    have h1 := hinfix.subset hmem
    have h2 := mem_collapseNLAux _ 0 h1
    rcases mem_collapseHSAux _ false h2 with h3 | h3
    · exact absurd h3 (by decide)
    · simp [removeCR, List.mem_filter] at h3
  · intro hmem
    rw [hdata] at hmem
    have h1 := hinfix.subset hmem
    have h2 := mem_collapseNLAux _ 0 h1
    exact tab_not_mem_collapseHSAux _ false h2
  · intro h
    rw [hdata] at h
    exact collapseNLAux_no_double _
      ((collapseHSAux_no_double (removeCR s.data) false).1) 0
      (h.trans hinfix)
  · intro h
    rw [hdata] at h
    exact collapseNLAux_no_triple _ 0 (h.trans hinfix)
  · intro c hc
    rw [hdata] at hc
    exact pyStrip_head _ c hc
  · intro c hc
    rw [hdata] at hc
    exact pyStrip_getLast _ c hc

/-- Witness for C8: a character-level consequence at a concrete input. -/
theorem collapse_ws_spec_witness : isPyWS 'a' = false :=
  (collapse_ws_spec "  a  b  ").2.2.2.2.1 'a' (by decide)

/-- **C6 counterexample.** A run in which the document exists, a candidate
range is found, and downstream extraction and validation succeed — but
with an empty `schedules` list — returns no status code at all: the
unguarded `payload.schedules[0]` access raises after validation, so the
claimed "0 on success" fails (the claim as stated is false). -/
theorem mainModel_counterexample :
    mainModel true ["rate schedule"] (.ok []) = none ∧
    mainModel true ["rate schedule"] (.ok []) ≠ some 0 := by
  constructor
  · rfl
  · intro h
    simp [mainModel] at h

/-- **C6 (amended).** `main` returns 1 when the document path does not
exist, 2 when the expanded candidate range sequence is empty, 3 when the
downstream try-block fails, and 0 on success provided the validated
payload contains at least one schedule; a successful validation with an
empty schedules list raises at `payload.schedules[0]` instead of
returning.  Without a positional argument the fixed sample path is used. -/
theorem mainModel_spec :
    (∀ (pages : List String) (downstream : Except String (List Unit)),
      mainModel false pages downstream = some 1) ∧
    (∀ (pages : List String) (downstream : Except String (List Unit)),
      expand_ranges (cluster_ranges (score_pages pages) 1)
        pages.length 2 = [] →
      mainModel true pages downstream = some 2) ∧
    (∀ (pages : List String) (msg : String),
      expand_ranges (cluster_ranges (score_pages pages) 1)
        pages.length 2 ≠ [] →
      mainModel true pages (.error msg) = some 3) ∧
    (∀ (pages : List String) (scheds : List Unit),
      expand_ranges (cluster_ranges (score_pages pages) 1)
        pages.length 2 ≠ [] → scheds ≠ [] →
      mainModel true pages (.ok scheds) = some 0) ∧
    (∀ (pages : List String),
      expand_ranges (cluster_ranges (score_pages pages) 1)
        pages.length 2 ≠ [] →
      mainModel true pages (.ok []) = none) ∧
    (∀ prog : String, choosePdfPath [prog] = defaultPdfPath) ∧
    (choosePdfPath [] = defaultPdfPath) ∧
    (∀ (prog arg : String) (rest : List String),
      choosePdfPath (prog :: arg :: rest) = arg) := by
  refine ⟨?_, ?_, ?_, ?_, ?_, fun _ => rfl, rfl, fun _ _ _ => rfl⟩
  · intro pages downstream
    simp [mainModel]
  · intro pages downstream h
    simp [mainModel, h]
  · intro pages msg h
    simp [mainModel, h]
  · intro pages scheds h hs
    cases scheds with
    | nil => exact absurd rfl hs
    | cons a t => simp [mainModel, h]
  · intro pages h
    simp [mainModel, h]

/-- Witness for C6 at concrete runs exercising each hypothesis. -/
theorem mainModel_spec_witness :
    mainModel true ["rate schedule"] (.error "transport failure") = some 3 :=
  mainModel_spec.2.2.1 ["rate schedule"] "transport failure" (by decide)

/-- Depth step at an opening brace. -/
theorem netDepth_cons_lb (x : List Char) :
    netDepth (lbrace :: x) = 1 + netDepth x := by
  rw [netDepth, if_pos rfl, if_neg (by decide : ¬ lbrace = rbrace)]
  omega

/-- Depth step at a closing brace. -/
theorem netDepth_cons_rb (x : List Char) :
    netDepth (rbrace :: x) = netDepth x - 1 := by
  rw [netDepth, if_neg (by decide : ¬ rbrace = lbrace), if_pos rfl]
  omega

/-- Depth step at any other character. -/
theorem netDepth_cons_other (c : Char) (hc1 : c ≠ lbrace) (hc2 : c ≠ rbrace)
    (x : List Char) : netDepth (c :: x) = netDepth x := by
  rw [netDepth, if_neg hc1, if_neg hc2]
  omega

/-- Characterization of the brace-matching loop at positive depth: a
`some` result is the accumulator followed by the shortest prefix of the
remaining text whose net depth cancels the carried depth; a `none` result
means no prefix cancels it. -/
theorem braceLoop_spec :
    ∀ (rest : List Char) (d : Int) (acc : List Char), 0 < d →
      (∀ out, braceLoop d acc rest = some out →
        ∃ k, 0 < k ∧ k ≤ rest.length ∧
          out = acc.reverse ++ rest.take k ∧
          d + netDepth (rest.take k) = 0 ∧
          ∀ j, j < k → d + netDepth (rest.take j) ≠ 0) ∧
      (braceLoop d acc rest = none →
        ∀ k, k ≤ rest.length → d + netDepth (rest.take k) ≠ 0) := by
  intro rest
  induction rest with
  | nil =>
    intro d acc hd
    constructor
    · intro out h; simp [braceLoop] at h
    · intro _ k hk
      simp only [List.length_nil, Nat.le_zero] at hk
      subst hk
      simp only [List.take_zero, netDepth]
      omega
  | cons c rest ih =>
    intro d acc hd
    constructor
    · intro out h
      simp only [braceLoop] at h
      by_cases hc1 : c = lbrace
      · rw [if_pos hc1] at h
        obtain ⟨k', hk0, hklen, hout, hdep, hmin⟩ :=
          (ih (d + 1) (c :: acc) (by omega)).1 out h
        refine ⟨k' + 1, by omega, by simp; omega, ?_, ?_, ?_⟩
        · rw [List.take_succ_cons, hout, List.reverse_cons, hc1]
          simp
        · rw [List.take_succ_cons, hc1, netDepth_cons_lb]
          omega
        · intro j hj
          cases j with
          | zero =>
            simp only [List.take_zero, netDepth]
            omega
          | succ j' =>
            rw [List.take_succ_cons, hc1, netDepth_cons_lb]
            have := hmin j' (by omega)
            omega
      · by_cases hc2 : c = rbrace
        · rw [if_neg hc1, if_pos hc2] at h
          by_cases hd1 : d - 1 = 0
          · rw [if_pos hd1] at h
            have hout : out = (c :: acc).reverse := by
              simpa using h.symm
            refine ⟨1, by omega, by simp, ?_, ?_, ?_⟩
            · rw [hout, List.reverse_cons]
              simp [List.take_succ_cons]
            · rw [(show (c :: rest).take 1 = [c] by simp), hc2,
                netDepth_cons_rb]
              simp only [netDepth]
              omega
            · intro j hj
              have : j = 0 := by omega
              subst this
              simp only [List.take_zero, netDepth]
              omega
          · rw [if_neg hd1] at h
            obtain ⟨k', hk0, hklen, hout, hdep, hmin⟩ :=
              (ih (d - 1) (c :: acc) (by omega)).1 out h
            refine ⟨k' + 1, by omega, by simp; omega, ?_, ?_, ?_⟩
            · rw [List.take_succ_cons, hout, List.reverse_cons, hc2]
              simp
            · rw [List.take_succ_cons, hc2, netDepth_cons_rb]
              omega
            · intro j hj
              cases j with
              | zero =>
                simp only [List.take_zero, netDepth]
                omega
              | succ j' =>
                rw [List.take_succ_cons, hc2, netDepth_cons_rb]
                have := hmin j' (by omega)
                omega
        · rw [if_neg hc1, if_neg hc2] at h
          obtain ⟨k', hk0, hklen, hout, hdep, hmin⟩ :=
            (ih d (c :: acc) hd).1 out h
          refine ⟨k' + 1, by omega, by simp; omega, ?_, ?_, ?_⟩
          · rw [List.take_succ_cons, hout, List.reverse_cons]
            simp
          · rw [List.take_succ_cons, netDepth_cons_other c hc1 hc2]
            omega
          · intro j hj
            cases j with
            | zero =>
              simp only [List.take_zero, netDepth]
              omega
            | succ j' =>
              rw [List.take_succ_cons, netDepth_cons_other c hc1 hc2]
              have := hmin j' (by omega)
              omega
    · intro h k hk
      cases k with
      | zero =>
        simp only [List.take_zero, netDepth]
        omega
      | succ k' =>
        simp only [braceLoop] at h
        simp only [List.length_cons] at hk
        by_cases hc1 : c = lbrace
        · rw [if_pos hc1] at h
          rw [List.take_succ_cons, hc1, netDepth_cons_lb]
          have := (ih (d + 1) (c :: acc) (by omega)).2 h k' (by omega)
          omega
        · by_cases hc2 : c = rbrace
          · rw [if_neg hc1, if_pos hc2] at h
            by_cases hd1 : d - 1 = 0
            · rw [if_pos hd1] at h
              simp at h
            · rw [if_neg hd1] at h
              rw [List.take_succ_cons, hc2, netDepth_cons_rb]
              have := (ih (d - 1) (c :: acc) (by omega)).2 h k' (by omega)
              omega
          · rw [if_neg hc1, if_neg hc2] at h
            rw [List.take_succ_cons, netDepth_cons_other c hc1 hc2]
            have := (ih d (c :: acc) hd).2 h k' (by omega)
            omega

/-- The brace scan started at a `{`: a `some` result is exactly the
shortest nonempty balanced prefix; a `none` result means no nonempty
prefix is balanced. -/
theorem braceLoop_entry (s' : List Char) :
    (∀ out, braceLoop 0 [] (lbrace :: s') = some out →
      ∃ k, 0 < k ∧ k ≤ (lbrace :: s').length ∧
        out = (lbrace :: s').take k ∧
        netDepth ((lbrace :: s').take k) = 0 ∧
        ∀ j, 0 < j → j < k → netDepth ((lbrace :: s').take j) ≠ 0) ∧
    (braceLoop 0 [] (lbrace :: s') = none →
      ∀ k, 0 < k → k ≤ (lbrace :: s').length →
        netDepth ((lbrace :: s').take k) ≠ 0) := by
  have hstep : braceLoop 0 [] (lbrace :: s') = braceLoop 1 [lbrace] s' := by
    simp [braceLoop]
  constructor
  · intro out h
    rw [hstep] at h
    obtain ⟨k', hk0, hklen, hout, hdep, hmin⟩ :=
      (braceLoop_spec s' 1 [lbrace] (by omega)).1 out h
    refine ⟨k' + 1, by omega, by simp; omega, ?_, ?_, ?_⟩
    · rw [List.take_succ_cons, hout]
      rfl
    · rw [List.take_succ_cons, netDepth_cons_lb]
      omega
    · intro j hj0 hjk
      cases j with
      | zero => omega
      | succ j' =>
        rw [List.take_succ_cons, netDepth_cons_lb]
        have := hmin j' (by omega)
        omega
  · intro h k hk0 hk
    rw [hstep] at h
    cases k with
    | zero => omega
    | succ k' =>
      rw [List.take_succ_cons, netDepth_cons_lb]
      simp only [List.length_cons] at hk
      have := (braceLoop_spec s' 1 [lbrace] (by omega)).2 h k' (by omega)
      omega

/-- **C5 counterexample.** On the reply `{{}` the braces starting at the
first `{` are unbalanced (no nonempty prefix has net depth zero, and the
whole text has net depth 1), yet `extract_json_object` raises no error:
the fast path returns the whole unbalanced text because it starts with
`{` and ends with `}`.  This falsifies both the "returns the first
balanced object" part and the "error iff" part of the claim. -/
theorem extract_json_object_counterexample :
    extract_json_object "\x7b\x7b\x7d" = .ok "\x7b\x7b\x7d" ∧
    netDepth "\x7b\x7b\x7d".data = 1 ∧
    (∀ k, k < 4 → 0 < k → netDepth ("\x7b\x7b\x7d".data.take k) ≠ 0) :=
  ⟨rfl, by decide, by decide⟩

/-- **C5 (amended).** For every reply, after whitespace/fence
normalization (`ejoNormalize`): a text that starts with `{` and ends with
`}` is returned whole with no balance check; otherwise the function
errors when no `{` occurs, errors when no nonempty prefix of the text
from the first `{` is brace-balanced, and otherwise returns exactly the
shortest balanced segment starting at the first `{` (the first balanced
top-level object). -/
theorem extract_json_object_spec (text : String) :
    ((ejoNormalize text).head? = some lbrace ∧
     (ejoNormalize text).getLast? = some rbrace →
      extract_json_object text = .ok ⟨ejoNormalize text⟩) ∧
    (¬ ((ejoNormalize text).head? = some lbrace ∧
        (ejoNormalize text).getLast? = some rbrace) →
      (lbrace ∉ ejoNormalize text →
        extract_json_object text =
          .error "No left brace found in model output") ∧
      (lbrace ∈ ejoNormalize text →
        ((∀ k, 0 < k →
            k ≤ ((ejoNormalize text).dropWhile (· ≠ lbrace)).length →
            netDepth (((ejoNormalize text).dropWhile (· ≠ lbrace)).take k)
              ≠ 0) →
          extract_json_object text =
            .error "Unbalanced braces in model output") ∧
        (∀ out, extract_json_object text = .ok out →
          ∃ k, 0 < k ∧
            k ≤ ((ejoNormalize text).dropWhile (· ≠ lbrace)).length ∧
            out = ⟨((ejoNormalize text).dropWhile (· ≠ lbrace)).take k⟩ ∧
            netDepth (((ejoNormalize text).dropWhile (· ≠ lbrace)).take k)
              = 0 ∧
            (∀ j, 0 < j → j < k →
              netDepth
                (((ejoNormalize text).dropWhile (· ≠ lbrace)).take j)
                ≠ 0)) ∧
        ((∃ k, 0 < k ∧
            k ≤ ((ejoNormalize text).dropWhile (· ≠ lbrace)).length ∧
            netDepth (((ejoNormalize text).dropWhile (· ≠ lbrace)).take k)
              = 0) →
          ∃ out, extract_json_object text = .ok out))) := by
  have hunf : extract_json_object text =
      (if (ejoNormalize text).head? = some lbrace ∧
          (ejoNormalize text).getLast? = some rbrace then
        Except.ok ⟨ejoNormalize text⟩
      else
        if (ejoNormalize text).dropWhile (· ≠ lbrace) = [] then
          Except.error "No left brace found in model output"
        else
          match braceLoop 0 []
              ((ejoNormalize text).dropWhile (· ≠ lbrace)) with
          | some obj => Except.ok ⟨obj⟩
          | none => Except.error "Unbalanced braces in model output") := rfl
  constructor
  · intro hcond
    rw [hunf, if_pos hcond]
  · intro hcond
    constructor
    · intro hnomem
      have hsnil : (ejoNormalize text).dropWhile (· ≠ lbrace) = [] := by
        rw [List.dropWhile_eq_nil_iff]
        intro x hx
        simp only [ne_eq, decide_eq_true_eq]
        intro heq
        exact hnomem (heq ▸ hx)
      rw [hunf, if_neg hcond, if_pos hsnil]
    · intro hmem
      have hsne : (ejoNormalize text).dropWhile (· ≠ lbrace) ≠ [] := by
        intro hnil
        rw [List.dropWhile_eq_nil_iff] at hnil
        have := hnil lbrace hmem
        simp at this
      obtain ⟨s', hs⟩ : ∃ s',
          (ejoNormalize text).dropWhile (· ≠ lbrace) = lbrace :: s' := by
        cases hq : (ejoNormalize text).dropWhile (· ≠ lbrace) with
        | nil => exact absurd hq hsne
        | cons c s' =>
          have : decide (c ≠ lbrace) = false :=
            head_dropWhile_not (fun c => decide (c ≠ lbrace))
              (ejoNormalize text) c (by rw [hq]; rfl)
          simp only [decide_eq_false_iff_not, ne_eq, not_not] at this
          exact ⟨s', by rw [this]⟩
      have hgoal : extract_json_object text =
          (match braceLoop 0 [] (lbrace :: s') with
          | some obj => Except.ok ⟨obj⟩
          | none => Except.error "Unbalanced braces in model output") := by
        rw [hunf, if_neg hcond, if_neg hsne, hs]
      rw [hs]
      cases hb : braceLoop 0 [] (lbrace :: s') with
      | none =>
        rw [hb] at hgoal
        refine ⟨fun _ => hgoal, ?_, ?_⟩
        · intro out hout
          rw [hgoal] at hout
          exact absurd hout (by simp)
        · intro ⟨k, hk0, hklen, hkdep⟩
          exact absurd hkdep ((braceLoop_entry s').2 hb k hk0 hklen)
      | some out0 =>
        rw [hb] at hgoal
        obtain ⟨k, hk0, hklen, hout0, hdep, hmin⟩ :=
          (braceLoop_entry s').1 out0 hb
        refine ⟨?_, ?_, fun _ => ⟨⟨out0⟩, hgoal⟩⟩
        · intro hall
          exact absurd hdep (hall k hk0 hklen)
        · intro out hout
          rw [hgoal] at hout
          simp only [Except.ok.injEq] at hout
          refine ⟨k, hk0, hklen, ?_, hdep, fun j hj0 hjk => hmin j hj0 hjk⟩
          rw [← hout, hout0]

/-- Witness for C5 at a concrete fenced-free reply taking the fast path. -/
theorem extract_json_object_spec_witness :
    extract_json_object "\x7bA\x7d" = .ok "\x7bA\x7d" :=
  (extract_json_object_spec "\x7bA\x7d").1 (by decide)

/-- Line splitting never returns an empty list of lines. -/
theorem splitNl_ne_nil : ∀ l : List Char, splitNl l ≠ [] := by
  intro l
  cases l with
  | nil => simp [splitNl]
  | cons c rest =>
    simp only [splitNl]
    by_cases hc : c = '\n'
    · rw [if_pos hc]; simp
    · rw [if_neg hc]
      cases splitNl rest with
      | nil => simp
      | cons a as => simp

/-- Line splitting across an explicit newline separates the two sides. -/
theorem splitNl_append_nl :
    ∀ (x y : List Char), splitNl (x ++ '\n' :: y) = splitNl x ++ splitNl y := by
  intro x y
  induction x with
  | nil => simp [splitNl]
  | cons c x' ih =>
    simp only [List.cons_append, splitNl, List.append_eq]
    by_cases hc : c = '\n'
    · rw [if_pos hc, if_pos hc, ih]
      rfl
    · rw [if_neg hc, if_neg hc, ih]
      cases hq : splitNl x' with
      | nil => exact absurd hq (splitNl_ne_nil x')
      | cons a as => rfl

/-- A newline-free list is a single line. -/
theorem splitNl_no_nl : ∀ l : List Char, '\n' ∉ l → splitNl l = [l] := by
  intro l
  induction l with
  | nil => intro _; rfl
  | cons c rest ih =>
    intro h
    have hc : c ≠ '\n' := fun heq => h (heq ▸ List.mem_cons_self _ _)
    have hrest : '\n' ∉ rest := fun hm => h (List.mem_cons_of_mem _ hm)
    simp only [splitNl, if_neg hc, ih hrest]

/-- The empty line is not a marker line. -/
theorem parseMarkerLine_nil : parseMarkerLine [] = none := rfl

/-- Marker extraction distributes over an explicit newline. -/
theorem markerNums_append_nl (x y : List Char) :
    markerNums (x ++ '\n' :: y) = markerNums x ++ markerNums y := by
  unfold markerNums
  rw [splitNl_append_nl, List.filterMap_append]

/-- A leading newline does not affect marker extraction. -/
theorem markerNums_cons_nl (y : List Char) :
    markerNums ('\n' :: y) = markerNums y := by
  have := markerNums_append_nl [] y
  simpa [markerNums, splitNl, parseMarkerLine_nil] using this

/-- Marker extraction of a newline-free list parses the single line. -/
theorem markerNums_no_nl (l : List Char) (h : '\n' ∉ l) :
    markerNums l = (parseMarkerLine l).toList := by
  unfold markerNums
  rw [splitNl_no_nl l h]
  cases hq : parseMarkerLine l <;> simp [List.filterMap_cons, hq]

/-- Stripping absorbs a leading whitespace character. -/
theorem pyStrip_cons_ws (c : Char) (l : List Char) (hc : isPyWS c = true) :
    pyStrip (c :: l) = pyStrip l := by
  unfold pyStrip
  rw [List.dropWhile_cons, if_pos hc]

/-- Stripping absorbs a trailing whitespace character. -/
theorem pyStrip_append_ws (v : List Char) (c : Char) (hc : isPyWS c = true) :
    pyStrip (v ++ [c]) = pyStrip v := by
  unfold pyStrip
  rw [List.dropWhile_append]
  by_cases hv : (v.dropWhile isPyWS).isEmpty
  · rw [if_pos hv]
    have hv' : v.dropWhile isPyWS = [] := by
      cases hq : v.dropWhile isPyWS with
      | nil => rfl
      | cons a as => rw [hq] at hv; simp at hv
    rw [hv']
    simp [List.dropWhile_cons, hc]
  · rw [if_neg hv]
    rw [List.reverse_append]
    simp only [List.reverse_cons, List.reverse_nil, List.nil_append,
      List.singleton_append, List.dropWhile_cons, hc, if_true]

/-- Marker parsing ignores a leading whitespace character. -/
theorem parseMarkerLine_cons_ws (c : Char) (l : List Char)
    (hc : isPyWS c = true) :
    parseMarkerLine (c :: l) = parseMarkerLine l := by
  unfold parseMarkerLine
  rw [pyStrip_cons_ws c l hc]

/-- Marker parsing ignores a trailing whitespace character. -/
theorem parseMarkerLine_append_ws (v : List Char) (c : Char)
    (hc : isPyWS c = true) :
    parseMarkerLine (v ++ [c]) = parseMarkerLine v := by
  unfold parseMarkerLine
  rw [pyStrip_append_ws v c hc]

/-- Split a list containing a newline at its first newline. -/
theorem exists_first_nl :
    ∀ l : List Char, '\n' ∈ l → ∃ A B, l = A ++ '\n' :: B ∧ '\n' ∉ A := by
  intro l
  induction l with
  | nil => intro h; simp at h
  | cons a t ih =>
    intro h
    by_cases ha : a = '\n'
    · exact ⟨[], t, by rw [ha]; rfl, by simp⟩
    · have hmem : '\n' ∈ t := by
        rcases List.mem_cons.mp h with heq | hm
        · exact absurd heq.symm ha
        · exact hm
      obtain ⟨A, B, hAB, hnA⟩ := ih hmem
      refine ⟨a :: A, B, by rw [hAB]; rfl, ?_⟩
      intro hm
      rcases List.mem_cons.mp hm with heq | hm2
      · exact ha heq.symm
      · exact hnA hm2

/-- Split a list containing a newline at its last newline. -/
theorem exists_last_nl (v : List Char) (h : '\n' ∈ v) :
    ∃ v₁ v₂, v = v₁ ++ '\n' :: v₂ ∧ '\n' ∉ v₂ := by
  have hr : '\n' ∈ v.reverse := List.mem_reverse.mpr h
  obtain ⟨r₁, r₂, hsplit, hnot⟩ := exists_first_nl v.reverse hr
  refine ⟨r₂.reverse, r₁.reverse, ?_, fun hm => hnot (by simpa using hm)⟩
  have := congrArg List.reverse hsplit
  simpa [List.reverse_append] using this

/-- No markers in the empty text. -/
theorem markerNums_nil : markerNums [] = [] := rfl

/-- A trailing whitespace character does not affect marker extraction. -/
theorem markerNums_append_ws (v : List Char) (c : Char)
    (hc : isPyWS c = true) :
    markerNums (v ++ [c]) = markerNums v := by
  by_cases hcn : c = '\n'
  · subst hcn
    have := markerNums_append_nl v []
    simpa [markerNums_nil] using this
  · by_cases hv : '\n' ∈ v
    · obtain ⟨v₁, v₂, rfl, hnv₂⟩ := exists_last_nl v hv
      rw [List.append_assoc, List.cons_append, markerNums_append_nl,
        markerNums_append_nl, markerNums_no_nl (v₂ ++ [c]), markerNums_no_nl v₂ hnv₂,
        parseMarkerLine_append_ws v₂ c hc]
      intro hm
      rcases List.mem_append.mp hm with hm | hm
      · exact hnv₂ hm
      · simp only [List.mem_singleton] at hm
        exact hcn hm.symm
    · have hvc : '\n' ∉ v ++ [c] := by
        intro hm
        rcases List.mem_append.mp hm with hm | hm
        · exact hv hm
        · simp only [List.mem_singleton] at hm
          exact hcn hm.symm
      rw [markerNums_no_nl _ hvc, markerNums_no_nl v hv,
        parseMarkerLine_append_ws v c hc]

/-- A leading whitespace character does not affect marker extraction. -/
theorem markerNums_cons_ws (c : Char) (v : List Char)
    (hc : isPyWS c = true) :
    markerNums (c :: v) = markerNums v := by
  by_cases hcn : c = '\n'
  · subst hcn; exact markerNums_cons_nl v
  · unfold markerNums
    cases hq : splitNl v with
    | nil => exact absurd hq (splitNl_ne_nil v)
    | cons h tl =>
      have hsplit : splitNl (c :: v) = (c :: h) :: tl := by
        simp only [splitNl, if_neg hcn, hq]
      rw [hsplit, List.filterMap_cons, List.filterMap_cons,
        parseMarkerLine_cons_ws c h hc]

/-- Left trimming does not affect marker extraction. -/
theorem markerNums_leftTrim :
    ∀ l : List Char, markerNums (l.dropWhile isPyWS) = markerNums l := by
  intro l
  induction l with
  | nil => rfl
  | cons c rest ih =>
    rw [List.dropWhile_cons]
    by_cases hc : isPyWS c
    · rw [if_pos hc, ih, markerNums_cons_ws c rest hc]
    · rw [if_neg hc]

/-- Right trimming (via reversal) does not affect marker extraction. -/
theorem markerNums_rightTrim :
    ∀ r : List Char,
      markerNums ((r.dropWhile isPyWS).reverse) = markerNums r.reverse := by
  intro r
  induction r with
  | nil => rfl
  | cons c r' ih =>
    rw [List.dropWhile_cons]
    by_cases hc : isPyWS c
    · rw [if_pos hc, ih, List.reverse_cons, markerNums_append_ws _ c hc]
    · rw [if_neg hc]

/-- Stripping does not affect marker extraction. -/
theorem markerNums_pyStrip (l : List Char) :
    markerNums (pyStrip l) = markerNums l := by
  unfold pyStrip
  rw [markerNums_rightTrim, List.reverse_reverse, markerNums_leftTrim]

/-- The newline collapser is the identity on newline-free text. -/
theorem collapseNLAux_nonl :
    ∀ l : List Char, '\n' ∉ l → ∀ n, collapseNLAux n l = l := by
  intro l
  induction l with
  | nil => intro _ n; rfl
  | cons c rest ih =>
    intro h n
    have hc : c ≠ '\n' := fun heq => h (heq ▸ List.mem_cons_self _ _)
    have hrest : '\n' ∉ rest := fun hm => h (List.mem_cons_of_mem _ hm)
    simp only [collapseNLAux, if_neg hc, ih hrest 0]

/-- The newline collapser passes a nonempty newline-free segment through
and resets its counter. -/
theorem collapseNLAux_prepend :
    ∀ A : List Char, '\n' ∉ A → A ≠ [] → ∀ (r : List Char) (n : Nat),
      collapseNLAux n (A ++ r) = A ++ collapseNLAux 0 r := by
  intro A
  induction A with
  | nil => intro _ hne; exact absurd rfl hne
  | cons a A' ih =>
    intro h _ r n
    have ha : a ≠ '\n' := fun heq => h (heq ▸ List.mem_cons_self _ _)
    have hA' : '\n' ∉ A' := fun hm => h (List.mem_cons_of_mem _ hm)
    simp only [List.cons_append, collapseNLAux, if_neg ha, List.append_eq]
    cases A' with
    | nil => rfl
    | cons b A'' =>
      rw [ih hA' (by simp) r 0]

/-- The newline collapser does not affect marker extraction. -/
theorem markerNums_collapseNL :
    ∀ (len : Nat) (l : List Char), l.length ≤ len → ∀ n,
      markerNums (collapseNLAux n l) = markerNums l := by
  intro len
  induction len with
  | zero =>
    intro l hl n
    have : l = [] := by
      cases l with
      | nil => rfl
      | cons a t => simp at hl
    subst this
    rfl
  | succ len ih =>
    intro l hl n
    by_cases hmem : '\n' ∈ l
    · obtain ⟨A, B, rfl, hnA⟩ := exists_first_nl l hmem
      cases A with
      | nil =>
        simp only [List.nil_append] at hl ⊢
        have hB : B.length ≤ len := by
          simp only [List.length_cons] at hl
          omega
        by_cases hn : n < 2
        · have hstep : collapseNLAux n ('\n' :: B) =
              '\n' :: collapseNLAux (n + 1) B := by
            simp [collapseNLAux, hn]
          rw [hstep, markerNums_cons_nl, markerNums_cons_nl, ih B hB (n + 1)]
        · have hstep : collapseNLAux n ('\n' :: B) = collapseNLAux n B := by
            simp [collapseNLAux, hn]
          rw [hstep, markerNums_cons_nl, ih B hB n]
      | cons a A' =>
        have hB : B.length ≤ len := by
          simp only [List.length_append, List.length_cons] at hl
          omega
        rw [collapseNLAux_prepend (a :: A') hnA (by simp)]
        have hstep : collapseNLAux 0 ('\n' :: B) =
            '\n' :: collapseNLAux 1 B := rfl
        rw [hstep, markerNums_append_nl, markerNums_append_nl, ih B hB 1]
    · rw [collapseNLAux_nonl l hmem n]

/-- Carriage-return removal distributes over concatenation. -/
theorem removeCR_append (x y : List Char) :
    removeCR (x ++ y) = removeCR x ++ removeCR y :=
  List.filter_append _ _

/-- Carriage-return removal keeps a leading newline. -/
theorem removeCR_cons_nl (x : List Char) :
    removeCR ('\n' :: x) = '\n' :: removeCR x := by
  simp [removeCR]

/-- The horizontal-whitespace collapser distributes across a newline. -/
theorem collapseHSAux_append_nl :
    ∀ (x : List Char) (b : Bool) (y : List Char),
      collapseHSAux b (x ++ '\n' :: y) =
        collapseHSAux b x ++ '\n' :: collapseHSAux false y := by
  intro x
  induction x with
  | nil => intro b y; simp [collapseHSAux, isHS]
  | cons c x' ih =>
    intro b y
    simp only [List.cons_append, collapseHSAux, List.append_eq]
    by_cases hc : isHS c
    · rw [if_pos hc, if_pos hc]
      cases b
      · simp only [Bool.false_eq_true, if_false, List.cons_append]
        rw [ih]
      · simp only [if_true]
        rw [ih]
    · rw [if_neg hc, if_neg hc, ih]
      rfl

/-- The horizontal-whitespace collapser passes a nonempty run-free
segment through and leaves the flag cleared. -/
theorem collapseHSAux_nonHS_prefix :
    ∀ d : List Char, (∀ c ∈ d, isHS c = false) → d ≠ [] →
      ∀ (b : Bool) (y : List Char),
        collapseHSAux b (d ++ y) = d ++ collapseHSAux false y := by
  intro d
  induction d with
  | nil => intro _ hne; exact absurd rfl hne
  | cons c d' ih =>
    intro h _ b y
    have hc : isHS c = false := h c (List.mem_cons_self _ _)
    have hd' : ∀ x ∈ d', isHS x = false :=
      fun x hx => h x (List.mem_cons_of_mem _ hx)
    simp only [List.cons_append, collapseHSAux, hc, Bool.false_eq_true,
      if_false, List.append_eq]
    cases d' with
    | nil => rfl
    | cons e d'' =>
      rw [ih hd' (by simp) false y]

/-- Fuelled decimal rendering at sufficient fuel: all characters are
digits, the result is nonempty, and parsing it back recovers the number. -/
theorem natToDecAux_spec :
    ∀ (fuel n : Nat), n < fuel →
      (∀ c ∈ natToDecAux fuel n, c.isDigit = true) ∧
      natToDecAux fuel n ≠ [] ∧
      decToNat (natToDecAux fuel n) = n := by
  intro fuel
  induction fuel with
  | zero => intro n h; omega
  | succ fuel ih =>
    intro n h
    by_cases h10 : n < 10
    · rw [natToDecAux, if_pos h10]
      refine ⟨?_, by simp, ?_⟩
      · intro c hc
        simp only [List.mem_singleton] at hc
        subst hc
        exact (by decide : ∀ m, m < 10 → (Char.ofNat (48 + m)).isDigit = true)
          n h10
      · exact (by decide : ∀ m, m < 10 →
          decToNat [Char.ofNat (48 + m)] = m) n h10
    · rw [natToDecAux, if_neg h10]
      have hrec := ih (n / 10) (by omega)
      refine ⟨?_, by simp, ?_⟩
      · intro c hc
        rcases List.mem_append.mp hc with hc | hc
        · exact hrec.1 c hc
        · simp only [List.mem_singleton] at hc
          subst hc
          exact (by decide : ∀ m, m < 10 →
            (Char.ofNat (48 + m)).isDigit = true) (n % 10) (by omega)
      · have happ : decToNat (natToDecAux fuel (n / 10) ++
            [Char.ofNat (48 + n % 10)]) =
            10 * decToNat (natToDecAux fuel (n / 10)) +
              ((Char.ofNat (48 + n % 10)).toNat - 48) := by
          unfold decToNat
          rw [List.foldl_append]
          rfl
        rw [happ, hrec.2.2]
        have := (by decide : ∀ m, m < 10 →
          (Char.ofNat (48 + m)).toNat = 48 + m) (n % 10) (by omega)
        rw [this]
        omega

/-- All characters of the decimal rendering are digits. -/
theorem natToDec_digits (n : Nat) : ∀ c ∈ natToDec n, c.isDigit = true :=
  (natToDecAux_spec (n + 1) n (by omega)).1

/-- The decimal rendering is nonempty. -/
theorem natToDec_ne_nil (n : Nat) : natToDec n ≠ [] :=
  (natToDecAux_spec (n + 1) n (by omega)).2.1

/-- Rendering then parsing a decimal numeral is the identity. -/
theorem decToNat_natToDec (n : Nat) : decToNat (natToDec n) = n :=
  (natToDecAux_spec (n + 1) n (by omega)).2.2

/-- A digit character is none of the whitespace characters. -/
theorem digit_not_ws (c : Char) (h : c.isDigit = true) :
    c ≠ '\n' ∧ c ≠ '\r' ∧ isHS c = false ∧ isPyWS c = false := by
  have hne : ∀ y : Char, y.isDigit = false → c ≠ y := by
    intro y hy heq
    rw [heq, hy] at h
    exact Bool.false_ne_true h
  have h1 : c ≠ '\n' := hne _ (by decide)
  have h2 : c ≠ '\r' := hne _ (by decide)
  have h3 : c ≠ ' ' := hne _ (by decide)
  have h4 : c ≠ '\t' := hne _ (by decide)
  have h5 : c ≠ '\x0b' := hne _ (by decide)
  have h6 : c ≠ '\x0c' := hne _ (by decide)
  refine ⟨h1, h2, ?_, ?_⟩
  · simp [isHS, h3, h4]
  · simp [isPyWS, h1, h2, h3, h4, h5, h6]

/-- The fixed delimiter texts contain no newline and no carriage return. -/
theorem marker_delims_clean :
    (∀ c ∈ markerPre, c ≠ '\n' ∧ c ≠ '\r') ∧
    (∀ c ∈ markerSuf, c ≠ '\n' ∧ c ≠ '\r') := by decide

/-- A marker line contains no newline. -/
theorem markerLine_no_nl (n : Nat) : '\n' ∉ markerLineChars n := by
  intro hm
  unfold markerLineChars at hm
  rcases List.mem_append.mp hm with hm | hm
  · rcases List.mem_append.mp hm with hm | hm
    · exact (marker_delims_clean.1 '\n' hm).1 rfl
    · exact (digit_not_ws '\n' (natToDec_digits n '\n' hm)).1 rfl
  · exact (marker_delims_clean.2 '\n' hm).1 rfl

/-- A marker line contains no carriage return. -/
theorem removeCR_markerLine (n : Nat) :
    removeCR (markerLineChars n) = markerLineChars n := by
  apply List.filter_eq_self.mpr
  intro c hc
  simp only [ne_eq, decide_eq_true_eq]
  unfold markerLineChars at hc
  rcases List.mem_append.mp hc with hm | hm
  · rcases List.mem_append.mp hm with hm | hm
    · exact (marker_delims_clean.1 c hm).2
    · exact (digit_not_ws c (natToDec_digits n c hm)).2.1
  · exact (marker_delims_clean.2 c hm).2

/-- A marker line is left unchanged by the horizontal-whitespace
collapser: its whitespace runs are single spaces. -/
theorem collapseHS_markerLine (n : Nat) :
    collapseHSAux false (markerLineChars n) = markerLineChars n := by
  have h9 : ∀ z, collapseHSAux false ("--- PAGE ".data ++ z) =
      "--- PAGE ".data ++ collapseHSAux true z := fun z => rfl
  have hsuf : collapseHSAux false markerSuf = markerSuf := rfl
  have hd : ∀ c ∈ natToDec n, isHS c = false :=
    fun c hc => (digit_not_ws c (natToDec_digits n c hc)).2.2.1
  show collapseHSAux false (markerPre ++ natToDec n ++ markerSuf) = _
  rw [List.append_assoc]
  show collapseHSAux false ("--- PAGE ".data ++ (natToDec n ++ markerSuf)) = _
  rw [h9, collapseHSAux_nonHS_prefix (natToDec n) hd (natToDec_ne_nil n)
    true markerSuf, hsuf]
  unfold markerLineChars markerPre
  rw [List.append_assoc]

/-- A marker line is left unchanged by stripping: it starts and ends with
a dash. -/
theorem pyStrip_markerLine (n : Nat) :
    pyStrip (markerLineChars n) = markerLineChars n := by
  have hcons : markerLineChars n =
      '-' :: ("-- PAGE ".data ++ (natToDec n ++ markerSuf)) := by
    show markerPre ++ natToDec n ++ markerSuf = _
    rw [List.append_assoc]
    rfl
  have hdrop1 : (markerLineChars n).dropWhile isPyWS = markerLineChars n := by
    rw [hcons, List.dropWhile_cons, if_neg (by decide)]
  have hrev : (markerLineChars n).reverse =
      '-' :: (['-', '-', ' '] ++ ((natToDec n).reverse ++
        markerPre.reverse)) := by
    show (markerPre ++ natToDec n ++ markerSuf).reverse = _
    rw [List.reverse_append, List.reverse_append]
    rfl
  have hdrop2 : (markerLineChars n).reverse.dropWhile isPyWS =
      (markerLineChars n).reverse := by
    rw [hrev, List.dropWhile_cons, if_neg (by decide)]
  unfold pyStrip
  rw [hdrop1, hdrop2, List.reverse_reverse]

/-- Parsing a marker line recovers its page number. -/
theorem parseMarkerLine_markerLine (n : Nat) :
    parseMarkerLine (markerLineChars n) = some n := by
  have hpre : markerPre.isPrefixOf (markerLineChars n) = true := by
    rw [List.isPrefixOf_iff_prefix]
    exact ⟨natToDec n ++ markerSuf, by
      unfold markerLineChars; rw [List.append_assoc]⟩
  have hm : (markerLineChars n).drop markerPre.length =
      natToDec n ++ markerSuf := by
    unfold markerLineChars
    rw [List.append_assoc, List.drop_left]
  have hd : (natToDec n ++ markerSuf).take
      ((natToDec n ++ markerSuf).length - markerSuf.length) = natToDec n := by
    rw [List.length_append, Nat.add_sub_cancel, List.take_left]
  simp only [parseMarkerLine, pyStrip_markerLine, hpre, if_true, hm, hd]
  rw [if_pos ⟨trivial, natToDec_ne_nil n,
    List.all_eq_true.mpr (natToDec_digits n)⟩, decToNat_natToDec]

/-- The horizontal-whitespace collapser keeps a leading newline and
clears its flag. -/
theorem collapseHSAux_cons_nl (b : Bool) (w : List Char) :
    collapseHSAux b ('\n' :: w) = '\n' :: collapseHSAux false w := by
  rw [collapseHSAux, if_neg (by decide : ¬ isHS '\n' = true)]

/-- Carriage-return removal and horizontal-whitespace collapsing turn one
page part into its normal form: newline, marker line, newline, normalized
page text. -/
theorem hscr_pagePart (pages : List String) (i : Nat) :
    collapseHSAux false (removeCR (pagePart pages i)) =
      '\n' :: (markerLineChars (i + 1) ++
        '\n' :: pageNorm (pages.getD i "")) := by
  show collapseHSAux false (removeCR (('\n' :: markerLineChars (i + 1)) ++
      '\n' :: (pages.getD i "").data)) = _
  rw [removeCR_append, removeCR_cons_nl, removeCR_cons_nl,
    removeCR_markerLine]
  rw [(show ('\n' :: markerLineChars (i + 1)) ++
      '\n' :: removeCR (pages.getD i "").data =
      '\n' :: (markerLineChars (i + 1) ++
        '\n' :: removeCR (pages.getD i "").data) from rfl)]
  rw [collapseHSAux_cons_nl, collapseHSAux_append_nl,
    collapseHS_markerLine]
  rfl

/-- Marker extraction of one normalized page part: exactly its marker
number, provided the page is marker-clean. -/
theorem markerNums_pagePart (pages : List String) (i : Nat)
    (hclean : cleanPage (pages.getD i "")) :
    markerNums ('\n' :: (markerLineChars (i + 1) ++
      '\n' :: pageNorm (pages.getD i ""))) = [i + 1] := by
  rw [markerNums_cons_nl, markerNums_append_nl,
    markerNums_no_nl _ (markerLine_no_nl (i + 1)),
    parseMarkerLine_markerLine]
  have hpage : markerNums (pageNorm (pages.getD i "")) = [] := by
    unfold markerNums
    exact List.filterMap_eq_nil_iff.mpr hclean
  rw [hpage]
  rfl

/-- Marker extraction of the whole assembled joined text: one marker
number per page index, in order. -/
theorem markerNums_joinNl (pages : List String) :
    ∀ idxs : List Nat, (∀ i ∈ idxs, cleanPage (pages.getD i "")) →
      markerNums (collapseHSAux false
        (removeCR (joinNl (idxs.map (pagePart pages))))) =
        idxs.map (· + 1) := by
  intro idxs
  induction idxs with
  | nil => intro _; rfl
  | cons i rest ih =>
    intro hclean
    have hi : cleanPage (pages.getD i "") :=
      hclean i (List.mem_cons_self _ _)
    cases rest with
    | nil =>
      show markerNums (collapseHSAux false
        (removeCR (pagePart pages i))) = [i + 1]
      rw [hscr_pagePart, markerNums_pagePart pages i hi]
    | cons j rest' =>
      have hrest : ∀ x ∈ j :: rest', cleanPage (pages.getD x "") :=
        fun x hx => hclean x (List.mem_cons_of_mem _ hx)
      show markerNums (collapseHSAux false
        (removeCR (pagePart pages i ++
          '\n' :: joinNl ((j :: rest').map (pagePart pages))))) = _
      rw [removeCR_append, removeCR_cons_nl, collapseHSAux_append_nl,
        markerNums_append_nl, hscr_pagePart,
        markerNums_pagePart pages i hi, ih hrest]
      rfl

/-- **C7 counterexample.** A page whose text itself contains a marker
line defeats the round trip: for `pages = ["--- PAGE 2 ---"]` and range
`(0, 0)` the re-split excerpt yields page numbers `[1, 2]` instead of the
claimed single segment `[1]`, so the claim is false for arbitrary page
sequences. -/
theorem excerpt_roundtrip_counterexample :
    markerNums (assemble_excerpt ["--- PAGE 2 ---"] 0 0).data = [1, 2] ∧
    List.range' (0 + 1) (0 + 1 - 0) = [1] ∧
    ([1, 2] : List Nat) ≠ [1] := ⟨by decide, by decide, by decide⟩

/-- **C7 (amended).** For in-bounds ranges over pages that are
marker-clean (no line of the normalized page text parses as a
page-boundary marker), re-splitting the assembled excerpt on its marker
lines yields exactly the 1-based page numbers `s+1 .. e+1` in order —
`e - s + 1` segments. -/
theorem excerpt_roundtrip (pages : List String) (s e : Nat)
    (hse : s ≤ e) (he : e < pages.length)
    (hclean : ∀ i, s ≤ i → i ≤ e → cleanPage (pages.getD i "")) :
    markerNums (assemble_excerpt pages s e).data =
      List.range' (s + 1) (e + 1 - s) ∧
    (markerNums (assemble_excerpt pages s e).data).length = e - s + 1 := by
  clear he
  have hchain : markerNums (assemble_excerpt pages s e).data =
      markerNums (collapseHSAux false
        (removeCR (assembleRaw pages s e))) := by
    show markerNums (pyStrip (collapseNLAux 0 (collapseHSAux false
      (removeCR (assembleRaw pages s e))))) = _
    rw [markerNums_pyStrip, markerNums_collapseNL _ _ (le_refl _)]
  have hcl : ∀ i ∈ List.range' s (e + 1 - s), cleanPage (pages.getD i "") := by
    intro i hi
    rw [List.mem_range'_1] at hi
    exact hclean i hi.1 (by omega)
  have hmain : markerNums (assemble_excerpt pages s e).data =
      (List.range' s (e + 1 - s)).map (· + 1) := by
    rw [hchain]
    exact markerNums_joinNl pages (List.range' s (e + 1 - s)) hcl
  have hrange : (List.range' s (e + 1 - s)).map (· + 1) =
      List.range' (s + 1) (e + 1 - s) := by
    have h1 : (List.range' s (e + 1 - s)).map (· + 1) =
        (List.range' s (e + 1 - s)).map (1 + ·) := by
      apply List.map_congr_left
      intro x _
      omega
    rw [h1, List.map_add_range']
    congr 1
    omega
  refine ⟨by rw [hmain, hrange], ?_⟩
  rw [hmain]
  simp only [List.length_map, List.length_range']
  omega

/-- Witness for C7 on concrete marker-clean pages. -/
theorem excerpt_roundtrip_witness :
    markerNums (assemble_excerpt ["alpha", "beta rate", "gamma"] 0 2).data =
      List.range' 1 3 :=
  (excerpt_roundtrip ["alpha", "beta rate", "gamma"] 0 2 (by decide)
    (by decide) (fun i h1 h2 => by interval_cases i <;> (unfold cleanPage; decide))).1

end RateScan
